import Mathlib

/-!
Verification development for the `@arturdoruch/form` HTML form manager.

The repository contains two revisions of the `Form` class (`src/lib/Form.js`,
the current one, and the older copy shipped in `src/unnamed/part_000`) plus the
`HttpRequest` value object (also in `src/unnamed/part_000`).  This file embeds
the data-transformation core of both revisions — bracket-name serialization
(`getData`), value flattening (`setData` / `_setElementValues` /
`_doSetData`), element value collection (`_getElementValues`) and the
`HttpRequest` constructor — as executable Lean functions, and proves the
specification's claims about them.

JavaScript strings are Lean `String`s; JavaScript objects and arrays are
modelled by `JValue`/`JEntries` below, keeping the insertion-ordered
string-keyed entry lists that jQuery's deep `$.extend` actually iterates.
-/

set_option maxHeartbeats 1000000

namespace JsForm

/-- ASCII letter, as matched by `[a-zA-Z]` in the source's regexes. -/
def isAlphaChar (c : Char) : Bool :=
  ('a' ≤ c && c ≤ 'z') || ('A' ≤ c && c ≤ 'Z')

/-- ASCII digit, as matched by `\d` / `[0-9]`. -/
def isDigitChar (c : Char) : Bool :=
  '0' ≤ c && c ≤ '9'

/-- Word character, as matched by `[a-zA-Z0-9_]`. -/
def isWordChar (c : Char) : Bool :=
  isAlphaChar c || isDigitChar c || c = '_'

/-- `Array.prototype.join(sep)` / `String.prototype.toUpperCase` helpers are
modelled structurally so that concrete values reduce in the kernel. -/
def joinSep (sep : String) : List String → String
  | [] => ""
  | [x] => x
  | x :: rest => x ++ sep ++ joinSep sep rest

/-- JS `String.prototype.toUpperCase` (ASCII, as used for HTTP methods). -/
def jsToUpper (s : String) : String :=
  String.mk (s.toList.map Char.toUpper)

/-- Lookup in an insertion-ordered association list (JS object property read). -/
def getA {α : Type} : List (String × α) → String → Option α
  | [], _ => none
  | (k, v) :: rest, key => if k = key then some v else getA rest key

/-- Write to an insertion-ordered association list (JS object property write):
an existing key keeps its position, a new key is appended. -/
def setA {α : Type} : List (String × α) → String → α → List (String × α)
  | [], key, value => [(key, value)]
  | (k, v) :: rest, key, value =>
    if k = key then (k, value) :: rest else (k, v) :: setA rest key value

/-- Concatenation of the images of `f`, used instead of bind/flatMap to keep
all recursions structural. -/
def concatMap {α β : Type} (f : α → List β) : List α → List β
  | [] => []
  | a :: rest => f a ++ concatMap f rest

mutual
/-- A JavaScript value as manipulated by the library: a string scalar, an
Array, or a plain Object.  Array entries are kept as string-keyed pairs
because the code stores into arrays with arbitrary string keys
(`base[key] = value`) and jQuery's deep `$.extend` iterates exactly those
own enumerable properties. -/
inductive JValue where
  | str (s : String)
  | arr (elems : JEntries)
  | obj (fields : JEntries)

/-- Insertion-ordered key/value entries of a JavaScript Array or Object. -/
inductive JEntries where
  | nil
  | cons (key : String) (value : JValue) (rest : JEntries)
end

deriving instance DecidableEq for JValue, JEntries

/-- JS object property read over `JEntries`. -/
def jget : JEntries → String → Option JValue
  | .nil, _ => none
  | .cons k v rest, key => if k = key then some v else jget rest key

/-- JS object property write over `JEntries` (existing key keeps its slot). -/
def jset : JEntries → String → JValue → JEntries
  | .nil, key, value => .cons key value .nil
  | .cons k v rest, key, value =>
    if k = key then .cons k value rest else .cons k v (jset rest key value)

/-- jQuery deep extend's clone choice when the incoming copy is an Array:
`src && Array.isArray(src) ? src : []`. -/
def arrFields : Option JValue → JEntries
  | some (.arr l) => l
  | _ => .nil

/-- jQuery deep extend's clone choice when the incoming copy is a plain
Object: `src && jQuery.isPlainObject(src) ? src : {}`. -/
def objFields : Option JValue → JEntries
  | some (.obj l) => l
  | _ => .nil

mutual
/-- The value stored at one key by jQuery's deep `$.extend`: a scalar copy
overwrites, a container copy is merged recursively into the previous value
when that value is a container of the same kind, and into a fresh empty
container otherwise. -/
def mergeCopy : Option JValue → JValue → JValue
  | _, .str s => .str s
  | src, .arr sl => .arr (extendEntries (arrFields src) sl)
  | src, .obj sl => .obj (extendEntries (objFields src) sl)

/-- jQuery deep `$.extend` over the entry lists of two containers: every
entry of the source is merged into the target in source order. -/
def extendEntries : JEntries → JEntries → JEntries
  | t, .nil => t
  | t, .cons k v rest => extendEntries (jset t k (mergeCopy (jget t k) v)) rest
end

/-- `$.extend(true, target, source)` as used by both `getData` revisions. -/
def jextend (target source : JValue) : JValue :=
  mergeCopy (some target) source

/-- One field entry as produced by jQuery's `serializeArray()`:
the element's submitted `(name, value)` pair. -/
structure Entry where
  name : String
  value : String

namespace FormV1

/-- Part of `patterns.validate` after the leading identifier: a sequence of
`\[(?:\d*|[a-zA-Z0-9_]+)\]` groups.  The flag is true while inside an open
bracket.  Bracket content may be any (possibly empty) run of word
characters: `[a-zA-Z0-9_]+` covers every non-empty run and `\d*` the empty
one. -/
def validTail : List Char → Bool → Bool
  | [], inBr => !inBr
  | c :: rest, false => c = '[' && validTail rest true
  | c :: rest, true =>
    if c = ']' then validTail rest false else isWordChar c && validTail rest true

/-- The `patterns.validate` regex of `Form.getData` (part_000):
`^[a-zA-Z][a-zA-Z0-9_]*(?:\[(?:\d*|[a-zA-Z0-9_]+)\])*$`. -/
def validate (name : String) : Bool :=
  match name.toList with
  | [] => false
  | c :: rest => isAlphaChar c && validTail (rest.dropWhile isWordChar) false

/-- Scanner for `name.match(patterns.key)` with
`patterns.key = /[a-zA-Z0-9_]+|(?=\[\])/g`: maximal word-character runs are
matched, and a zero-width match (yielding `""`) fires before each `[]`
pair.  The accumulator holds the pending word run reversed. -/
def matchKeysAux : List Char → List Char → List String
  | [], acc => if acc.isEmpty then [] else [String.mk acc.reverse]
  | c :: rest, acc =>
    if isWordChar c then matchKeysAux rest (c :: acc)
    else
      let tail :=
        if c = '[' && rest.head? = some ']' then "" :: matchKeysAux rest []
        else matchKeysAux rest []
      if acc.isEmpty then tail else String.mk acc.reverse :: tail

/-- `name.match(patterns.key)` of `Form.getData` (part_000). -/
def matchKeys (name : String) : List String :=
  matchKeysAux name.toList []

/-- `s` ends with the literal suffix `sfx`. -/
def strEnds (s sfx : String) : Bool :=
  List.isPrefixOf sfx.toList.reverse s.toList.reverse

/-- `reverseKey.replace(new RegExp("\\[" + k + "\\]$"), '')`: since `k` is
always a run of word characters (or empty), the interpolated regex matches
exactly the literal suffix `"[" ++ k ++ "]"`. -/
def stripBracketSuffix (s k : String) : String :=
  let sfx := "[" ++ k ++ "]"
  if strEnds s sfx then String.mk (s.toList.take (s.toList.length - sfx.toList.length))
  else s

/-- The per-call `pushCounters` object: reverse key ↦ next push index. -/
abbrev Counters := List (String × Nat)

/-- The `pushCounter` closure of `Form.getData` (part_000): returns the
current counter for `key` (0 when absent) and post-increments it. -/
def pushCounter (cnt : Counters) (key : String) : Nat × Counters :=
  let n := (getA cnt key).getD 0
  (n, setA cnt key (n + 1))

/-- `patterns.fixed = /^\d+$/`. -/
def isDigits (s : String) : Bool :=
  !s.toList.isEmpty && s.toList.all isDigitChar

/-- `patterns.named = /^[a-zA-Z0-9_]+$/`. -/
def isNamed (s : String) : Bool :=
  !s.toList.isEmpty && s.toList.all isWordChar

/-- The `while ((k = keys.pop()) !== undefined)` loop of `Form.getData`
(part_000).  The first argument is the key list in pop order (reversed),
`rk` is the running `reverseKey`, and the counters thread the mutable
`pushCounters` object.  `patterns.push = /^$/` matches exactly `""`. -/
def buildFragment : List String → JValue → String → Counters → JValue × Counters
  | [], merge, _, cnt => (merge, cnt)
  | k :: rest, merge, rk, cnt =>
    let rk' := stripBracketSuffix rk k
    if k = "" then
      let (i, cnt') := pushCounter cnt rk'
      buildFragment rest (.arr (.cons (toString i) merge .nil)) rk' cnt'
    else if isDigits k then
      buildFragment rest (.arr (.cons k merge .nil)) rk' cnt
    else if isNamed k then
      buildFragment rest (.obj (.cons k merge .nil)) rk' cnt
    else
      buildFragment rest merge rk' cnt

/-- One iteration of the `for (const element of elements)` loop of
`Form.getData` (part_000): invalid names (and, with `skipEmptyValues`,
empty values) are skipped, otherwise the single-path fragment is built and
deep-merged into the accumulated data. -/
def getDataStep (skipEmptyValues : Bool) (dc : JValue × Counters) (e : Entry) :
    JValue × Counters :=
  if !validate e.name || (skipEmptyValues && e.value = "") then dc
  else
    let (merge, cnt') := buildFragment (matchKeys e.name).reverse (.str e.value) e.name dc.2
    (jextend dc.1 merge, cnt')

/-- `Form.getData` (part_000) with an explicit initial push-counter store,
exposing the final counters.  The accumulated data always starts from a
fresh empty object. -/
def getDataRun (cnt : Counters) (entries : List Entry) (skipEmptyValues : Bool) :
    JValue × Counters :=
  entries.foldl (getDataStep skipEmptyValues) (JValue.obj .nil, cnt)

/-- `Form.getData` (part_000): `pushCounters` is a fresh empty object created
on every call (`let pushCounters = {}`) and is not part of the return value. -/
def getData (entries : List Entry) (skipEmptyValues : Bool) : JValue :=
  (getDataRun [] entries skipEmptyValues).1

end FormV1

/-- One `<option>` of a select element: its submit value and selected flag. -/
structure SelectOpt where
  value : String
  selected : Bool
deriving DecidableEq

/-- A live form element as the library reads it from the DOM: `name`,
`nodeName` (`"INPUT"`, `"BUTTON"`, `"SELECT"`, `"TEXTAREA"`), `type`
(modelled as `etype`), current `value`, `checked` and `disabled` flags, and
the option list for select elements. -/
structure Element where
  name : String
  nodeName : String
  etype : String
  value : String
  checked : Bool
  disabled : Bool
  options : List SelectOpt
deriving DecidableEq

/-- An element's collected value: a string or an array of strings, as stored
into the `{"element-name": value}` map by `_getElementValues`. -/
inductive FieldValue where
  | s (v : String)
  | l (vs : List String)
deriving DecidableEq

/-- The `/\[\]$/` test used by both revisions. -/
def endsWithPush (s : String) : Bool :=
  match s.toList.reverse with
  | ']' :: '[' :: _ => true
  | _ => false

namespace Form

/-- `form.elements.namedItem(name)`: the form elements carrying `name`.  A
result with two or more elements is a `RadioNodeList`. -/
def namedItems (all : List Element) (name : String) : List Element :=
  all.filter (fun e => e.name = name)

/-- The per-element value computation of `Form._getElementValues`
(src/lib/Form.js): `none` models a `continue` without storing anything. -/
def collectValue (all : List Element) (data : List (String × FieldValue))
    (e : Element) : Option FieldValue :=
  if e.etype = "select-multiple" then
    some (.l ((e.options.filter (fun o => o.selected)).map (fun o => o.value)))
  else if e.etype = "checkbox" then
    if (getA data e.name).isSome then none
    else
      let lst := namedItems all e.name
      if 2 ≤ lst.length then
        some (.l ((lst.filter (fun x => x.checked)).map (fun x => x.value)))
      else if endsWithPush e.name then
        some (.l (if e.checked then [e.value] else []))
      else if !e.checked then none
      else some (.s e.value)
  else if e.etype = "radio" then
    if (getA data e.name).isSome then none
    else
      let lst := namedItems all e.name
      if 2 ≤ lst.length then
        some (.s (((lst.filter (fun x => x.checked)).map (fun x => x.value)).headD ""))
      else some (.s e.value)
  else some (.s e.value)

/-- The `skipEmptyValues === true && (!value || !value.length)` test:
an empty string and an empty array are both skipped. -/
def isEmptyFV : FieldValue → Bool
  | .s v => v = ""
  | .l vs => vs.isEmpty

/-- The element loop of `Form._getElementValues` (src/lib/Form.js lines
435-502): elements with an empty name, `BUTTON` nodes and disabled elements
are skipped up front; the computed value is then stored under the element
name unless empty values are being skipped. -/
def getElementValuesLoop (all : List Element) (skipEmptyValues : Bool) :
    List Element → List (String × FieldValue) → List (String × FieldValue)
  | [], data => data
  | e :: rest, data =>
    if e.name = "" || e.nodeName = "BUTTON" || e.disabled then
      getElementValuesLoop all skipEmptyValues rest data
    else
      match collectValue all data e with
      | none => getElementValuesLoop all skipEmptyValues rest data
      | some v =>
        if skipEmptyValues && isEmptyFV v then
          getElementValuesLoop all skipEmptyValues rest data
        else getElementValuesLoop all skipEmptyValues rest (setA data e.name v)

/-- `Form._getElementValues` (src/lib/Form.js). -/
def getElementValues (elems : List Element) (skipEmptyValues : Bool) :
    List (String × FieldValue) :=
  getElementValuesLoop elems skipEmptyValues elems []

/-- Scanner for `name.match(/[^\[\]]+/g)` used by the lib revision of
`Form.getData`: maximal runs of non-bracket characters.  The accumulator
holds the pending run reversed. -/
def libTokensAux : List Char → List Char → List String
  | [], acc => if acc.isEmpty then [] else [String.mk acc.reverse]
  | c :: rest, acc =>
    if c = '[' || c = ']' then
      if acc.isEmpty then libTokensAux rest []
      else String.mk acc.reverse :: libTokensAux rest []
    else libTokensAux rest (c :: acc)

/-- `name.match(/[^\[\]]+/g)` of `Form.getData` (src/lib/Form.js). -/
def libTokens (s : String) : List String :=
  libTokensAux s.toList []

/-- A collected `FieldValue` as the JavaScript value fed into the nested
build: arrays keep their consecutive numeric keys. -/
def listToEntries : List String → Nat → JEntries
  | [], _ => .nil
  | v :: rest, i => .cons (toString i) (.str v) (listToEntries rest (i + 1))

/-- Embedding of a collected element value into `JValue`. -/
def fvToJValue : FieldValue → JValue
  | .s v => .str v
  | .l vs => .arr (listToEntries vs 0)

/-- The `while ((_name = names.pop()) !== undefined)` loop of the lib
revision of `Form.getData`: a numeric token (`/^\d+$/`) wraps into an
array, any other non-empty token (`/^.+$/`) into an object.  The first
argument is the token list in pop order (reversed). -/
def buildNested : List String → JValue → JValue
  | [], v => v
  | k :: rest, v =>
    if FormV1.isDigits k then buildNested rest (.arr (.cons k v .nil))
    else if !k.toList.isEmpty then buildNested rest (.obj (.cons k v .nil))
    else buildNested rest v

/-- `Form.getData` (src/lib/Form.js lines 276-307) on the serialized path
(`serialized = true`): collect element values, then parse each name's
bracket tokens and deep-merge the fragments. -/
def getData (elems : List Element) (skipEmptyValues : Bool) : JValue :=
  (getElementValues elems skipEmptyValues).foldl
    (fun data kv => jextend data (buildNested (libTokens kv.1).reverse (fvToJValue kv.2)))
    (JValue.obj .nil)

/-- String coercion of a value assigned to `element.value`
(`Array.prototype.toString` joins with commas). -/
def fvToString : FieldValue → String
  | .s v => v
  | .l vs => joinSep "," vs

/-- The `if (typeof value === 'string') value = [value]` coercion. -/
def fvList : FieldValue → List String
  | .s v => [v]
  | .l vs => vs

/-- The select branch of `Form._setElementValues` (src/lib/Form.js):
`element.selectedIndex = -1` clears every option, then each option whose
value equals some entry of the target list gets `option.selected = true`. -/
def setOptionsSelected (opts : List SelectOpt) (vals : List String) :
    List SelectOpt :=
  (opts.map (fun o => { o with selected := false })).map
    (fun o => if vals.contains o.value then { o with selected := true } else o)

/-- One element of the `Form._setElementValues` loop (src/lib/Form.js lines
511-564).  An element whose name has no entry in `data` is left unchanged;
submit/reset/button types are never assigned. -/
def setElementValue1 (data : List (String × FieldValue)) (e : Element) : Element :=
  match getA data e.name with
  | none => e
  | some value =>
    match e.etype with
    | "submit" | "reset" | "button" => e
    | "select-one" | "select-multiple" =>
      { e with options := setOptionsSelected e.options (fvList value) }
    | "radio" | "checkbox" =>
      -- `element.checked = false` then set true on a matching value
      { e with checked := (fvList value).contains e.value }
    | _ => { e with value := fvToString value }

/-- `Form._setElementValues` (src/lib/Form.js) over an element list. -/
def setElementValues (elems : List Element) (data : List (String × FieldValue)) :
    List Element :=
  elems.map (setElementValue1 data)

end Form

namespace FormV1

/-- The select branch of `Form._doSetData` (src/unnamed/part_000 lines
431-450): unlike the lib revision, a matching option is assigned
`option.selected = i` — the option's numeric index, which JavaScript
coerces to a boolean, i.e. `false` exactly at index 0. -/
def setOptionsSelectedV1 (opts : List SelectOpt) (vals : List String) :
    List SelectOpt :=
  ((opts.map (fun o => { o with selected := false })).enum).map
    (fun p => if vals.contains p.2.value then { p.2 with selected := decide (p.1 ≠ 0) } else p.2)

/-- One element of the `Form._doSetData` loop (src/unnamed/part_000 lines
415-470); identical to the lib revision except for the select branch. -/
def doSetDataOne (data : List (String × FieldValue)) (e : Element) : Element :=
  match getA data e.name with
  | none => e
  | some value =>
    match e.etype with
    | "submit" | "reset" | "button" => e
    | "select-one" | "select-multiple" =>
      { e with options := setOptionsSelectedV1 e.options (Form.fvList value) }
    | "radio" | "checkbox" =>
      { e with checked := (Form.fvList value).contains e.value }
    | _ => { e with value := Form.fvToString value }

end FormV1

/-- Characters `encodeURIComponent` leaves untouched:
`A-Z a-z 0-9 - _ . ! ~ * ' ( )`. -/
def unreservedChar (c : Char) : Bool :=
  isAlphaChar c || isDigitChar c ||
  c = '-' || c = '_' || c = '.' || c = '!' || c = '~' || c = '*' ||
  c = '\'' || c = '(' || c = ')'

/-- Uppercase hex digit of a value `< 16`. -/
def hexDigitChar (n : Nat) : Char :=
  if n < 10 then Char.ofNat (48 + n) else Char.ofNat (55 + n)

/-- `%XX` percent-encoding of one byte. -/
def percentByte (n : Nat) : List Char :=
  ['%', hexDigitChar (n / 16), hexDigitChar (n % 16)]

/-- UTF-8 bytes of a code point. -/
def utf8Bytes (n : Nat) : List Nat :=
  if n < 128 then [n]
  else if n < 2048 then [192 + n / 64, 128 + n % 64]
  else if n < 65536 then [224 + n / 4096, 128 + n / 64 % 64, 128 + n % 64]
  else [240 + n / 262144, 128 + n / 4096 % 64, 128 + n / 64 % 64, 128 + n % 64]

/-- Modelled JS builtin `encodeURIComponent`: unreserved characters pass
through, every other character is percent-encoded byte by byte. -/
def encodeChar (c : Char) : List Char :=
  if unreservedChar c then [c] else concatMap percentByte (utf8Bytes c.toNat)

/-- Modelled JS builtin `encodeURIComponent` over a string. -/
def encodeURIComponent (s : String) : String :=
  String.mk (concatMap encodeChar s.toList)

/-- Hex digit value accepted by percent-decoding. -/
def hexVal (c : Char) : Option Nat :=
  if '0' ≤ c && c ≤ '9' then some (c.toNat - 48)
  else if 'A' ≤ c && c ≤ 'F' then some (c.toNat - 55)
  else if 'a' ≤ c && c ≤ 'f' then some (c.toNat - 87)
  else none

/-- Modelled JS builtin `decodeURIComponent`, faithful on percent-encodings
of single-byte (ASCII) sequences: each valid `%XX` becomes the character
with code `XX`; multi-byte UTF-8 reassembly is not modelled (the theorems
below only decode ASCII encodings) and an invalid escape keeps its `%`. -/
def decodeChars : List Char → List Char
  | [] => []
  | c :: rest =>
    if c = '%' then
      match rest with
      | h1 :: h2 :: rest' =>
        (match hexVal h1, hexVal h2 with
         | some a, some b => Char.ofNat (16 * a + b) :: decodeChars rest'
         | _, _ => '%' :: decodeChars (h1 :: h2 :: rest'))
      | [h1] => ['%', h1]
      | [] => ['%']
    else c :: decodeChars rest

/-- Modelled JS builtin `decodeURIComponent` over a string. -/
def decodeURIComponent (s : String) : String :=
  String.mk (decodeChars s.toList)

/-- One step of `String.prototype.split`: prepend `c` to the first group, or
open a new group when `c` is the separator. -/
def splitCons (c sep : Char) : List (List Char) → List (List Char)
  | [] => [[]]
  | g :: gs => if c = sep then [] :: g :: gs else (c :: g) :: gs

/-- `String.prototype.split` with a one-character separator. -/
def splitChar (sep : Char) : List Char → List (List Char)
  | [] => [[]]
  | c :: rest => splitCons c sep (splitChar sep rest)

/-- A canonical JavaScript array index: `"0"` or digits without a leading
zero.  Only such keys contribute to an array's `length`. -/
def canonIdx (s : String) : Option Nat :=
  match s.toList with
  | [] => none
  | ['0'] => some 0
  | c :: rest =>
    if isDigitChar c && c ≠ '0' && rest.all isDigitChar then
      some (s.toList.foldl (fun n ch => n * 10 + (ch.toNat - 48)) 0)
    else none

/-- The `length` of a JavaScript array holding these entries. -/
def arrLen : JEntries → Nat
  | .nil => 0
  | .cons k _ rest => max (((canonIdx k).map (· + 1)).getD 0) (arrLen rest)

/-- JS string coercion of a value handed to jQuery's `add` when it is not a
scalar (`r20`-style degenerate inputs; unreachable in this development for
well-formed data). -/
def jsCoerce : JValue → String
  | .str s => s
  | .obj _ => "[object Object]"
  | .arr _ => ""

theorem jget_sizeOf_lt : ∀ {l : JEntries} {k : String} {v : JValue},
    jget l k = some v → sizeOf v < sizeOf l
  | .nil, _, _, h => by simp [jget] at h
  | .cons k' v' rest, k, v, h => by
    simp only [jget] at h
    split at h
    · cases h
      simp
      omega
    · have := jget_sizeOf_lt h
      simp
      omega

mutual
/-- jQuery 3.x `buildParams(prefix, obj, false, add)` returning the
`(key, value)` pairs handed to `add` (before URL-encoding). -/
def buildParams (pfx : String) : JValue → List (String × String)
  | .str v => [(pfx, v)]
  | .obj l => buildParamsObj pfx l
  | .arr l => buildParamsArr pfx l (arrLen l) 0
termination_by v => (sizeOf v, 0)
decreasing_by
  all_goals apply Prod.Lex.left
  all_goals simp

/-- The plain-object branch of `buildParams`: recurse with
`prefix + "[" + name + "]"` for each own property in order. -/
def buildParamsObj (pfx : String) : JEntries → List (String × String)
  | .nil => []
  | .cons k v rest => buildParams (pfx ++ "[" ++ k ++ "]") v ++ buildParamsObj pfx rest
termination_by l => (sizeOf l, 0)
decreasing_by
  all_goals apply Prod.Lex.left
  all_goals simp
  all_goals omega

/-- The array branch of `buildParams`: jQuery iterates indices
`0 .. length-1`.  For a prefix already ending in `[]` the value is added
as-is (`add(prefix, v)`, with JS string coercion); otherwise a container
element recurses with `prefix + "[" + i + "]"` and a scalar element (or a
hole, which is `undefined` and becomes `""`) is added under
`prefix + "[]"`.  The `Nat` arguments are the remaining count and the
current index. -/
def buildParamsArr (pfx : String) (l : JEntries) : Nat → Nat → List (String × String)
  | 0, _ => []
  | n + 1, i =>
    (match h : jget l (toString i) with
     | some (.str s) =>
       if FormV1.strEnds pfx "[]" then [(pfx, jsCoerce (.str s))] else [(pfx ++ "[]", s)]
     | some (.arr l') =>
       if FormV1.strEnds pfx "[]" then [(pfx, jsCoerce (.arr l'))]
       else buildParams (pfx ++ "[" ++ toString i ++ "]") (.arr l')
     | some (.obj l') =>
       if FormV1.strEnds pfx "[]" then [(pfx, jsCoerce (.obj l'))]
       else buildParams (pfx ++ "[" ++ toString i ++ "]") (.obj l')
     | none => [(pfx ++ "[]", "")]) ++ buildParamsArr pfx l n (i + 1)
termination_by n i => (sizeOf l, n + 1)
decreasing_by
  · apply Prod.Lex.left
    have := jget_sizeOf_lt h
    simp at this ⊢
    omega
  · apply Prod.Lex.left
    have := jget_sizeOf_lt h
    simp at this ⊢
    omega
  · apply Prod.Lex.right
    omega
end

/-- Top level of jQuery `$.param(a)` for a plain object: each own property
name is the initial prefix. -/
def paramPairsTop : JEntries → List (String × String)
  | .nil => []
  | .cons k v rest => buildParams k v ++ paramPairsTop rest

/-- The `(key, value)` pairs `$.param` generates for a value. -/
def paramPairs : JValue → List (String × String)
  | .obj l => paramPairsTop l
  | _ => []

/-- Modelled jQuery 3.x `$.param(data)` (non-traditional): URL-encode each
pair and join with `&`. -/
def jparam (v : JValue) : String :=
  joinSep "&"
    ((paramPairs v).map (fun p => encodeURIComponent p.1 ++ "=" ++ encodeURIComponent p.2))

namespace Form

/-- `decodeURIComponent(parts[0])` of one `name=value` query parameter in
`Form.setData`. -/
def paramName (q : String) : String :=
  decodeURIComponent (String.mk ((splitChar '=' q.toList).headD []))

/-- `decodeURIComponent(parts[1])` of one query parameter; a missing second
part is JavaScript `undefined`, which stringifies to `"undefined"`. -/
def paramValue (q : String) : String :=
  match (splitChar '=' q.toList).drop 1 with
  | [] => "undefined"
  | v :: _ => decodeURIComponent (String.mk v)

/-- One iteration of the query-parameter loop of `Form.setData`
(src/lib/Form.js lines 331-345): split on `=`, decode name and value, then
accumulate: names ending in `[]` collect an array, other names store the
scalar. -/
def rebuildStep (data : List (String × FieldValue)) (q : String) :
    List (String × FieldValue) :=
  let name := paramName q
  let value := paramValue q
  if endsWithPush name then
    let cur := match getA data name with | some (.l vs) => vs | _ => []
    setA data name (.l (cur ++ [value]))
  else setA data name (.s value)

/-- `Form.setData` (src/lib/Form.js lines 315-349) on the serialized path:
optionally wrap under the element-name prefix, serialize with `$.param`,
split the query string into parameters, rebuild the flat
`{"element-name": value}` map, and assign element values. -/
def setData (elems : List Element) (pfxOpt : Option String) (data : JValue) :
    List Element :=
  let data :=
    match pfxOpt with
    | some p =>
      match data with
      | .obj l => if (jget l p).isSome then JValue.obj l else .obj (.cons p (.obj l) .nil)
      | d => .obj (.cons p d .nil)
    | none => data
  let params := (splitChar '&' (jparam data).toList).map String.mk
  setElementValues elems (params.foldl rebuildStep [])

end Form

/-- The `HttpRequest` value object (src/unnamed/part_000 lines 7-51). -/
structure HttpRequest where
  method : String
  url : String
  data : JValue
  queryString : String

namespace HttpRequest

/-- The `HttpRequest` constructor: uppercase the method, derive the query
string with `$.param`, and for a GET method with a non-empty query string
append it to the URL, joined by `&` when the URL already contains `?`.
No network call is involved: the result is a plain value. -/
def make (method action : String) (data : JValue) : HttpRequest :=
  let m := jsToUpper method
  let qs := jparam data
  let url :=
    if m = "GET" && qs ≠ "" then
      action ++ (if action.contains '?' then "&" else "?") ++ qs
    else action
  ⟨m, url, data, qs⟩

/-- `HttpRequest.getUrl`. -/
def getUrl (r : HttpRequest) : String := r.url

/-- `HttpRequest.getMethod`. -/
def getMethod (r : HttpRequest) : String := r.method

/-- `HttpRequest.getQueryString`. -/
def getQueryString (r : HttpRequest) : String := r.queryString

end HttpRequest

/-! ## Specification-side notions for the round-trip claim

The definitions below do not embed repository code; they carve out the
field-name shapes the round-trip claim quantifies over ("explicit
array/object bracket syntax") and invariants used by the proofs. -/

/-- A bracketed field name, split into its base identifier and bracket
segments. -/
structure NamePath where
  base : String
  segs : List String
deriving DecidableEq

/-- The concatenated bracket suffix `[s1][s2]...`. -/
def segsStr : List String → String
  | [] => ""
  | s :: rest => "[" ++ s ++ "]" ++ segsStr rest

/-- The literal field name `base[s1][s2]...`. -/
def render (p : NamePath) : String :=
  p.base ++ segsStr p.segs

/-- A base identifier: a letter followed by word characters. -/
def identStr (s : String) : Bool :=
  match s.data with
  | [] => false
  | c :: rest => isAlphaChar c && rest.all isWordChar

/-- An object-bracket segment: non-empty word characters, not all digits
(so the lib tokenizer's `/^\d+$/` test fails and the segment builds an
object key). -/
def namedSeg (s : String) : Bool :=
  !s.data.isEmpty && s.data.all isWordChar && !(s.data.all isDigitChar)

/-- A well-formed object-bracket field name. -/
def wfPath (p : NamePath) : Bool :=
  identStr p.base && p.segs.all namedSeg

/-- A plain enabled text input. -/
def mkTextInput (name value : String) : Element :=
  ⟨name, "INPUT", "text", value, false, false, []⟩

/-- The single-path nested object `{s1: {s2: ... v}}`. -/
def nestSegs : List String → JValue → JValue
  | [], v => v
  | s :: rest, v => .obj (.cons s (nestSegs rest v) .nil)

mutual
/-- A value containing no JavaScript array (only scalars and objects). -/
def noArr : JValue → Bool
  | .str _ => true
  | .arr _ => false
  | .obj l => noArrE l
/-- Entry-list companion of `noArr`. -/
def noArrE : JEntries → Bool
  | .nil => true
  | .cons _ v rest => noArr v && noArrE rest
end

/-- `noArr` lifted to an optional value. -/
def noArrOpt : Option JValue → Bool
  | none => true
  | some v => noArr v

/-- The `(key, value)` pairs contributed by the entries of a container
whose keys map to prefixes through `g` (generalizing both `buildParamsObj`
and `paramPairsTop`). -/
def entriesPairs (g : String → String) : JEntries → List (String × String)
  | .nil => []
  | .cons k v rest => buildParams (g k) v ++ entriesPairs g rest

/-- ASCII-only string. -/
def asciiStr (s : String) : Prop := ∀ c ∈ s.data, c.toNat < 128

/-! ## Helper lemmas -/

/-- Spine induction for `JEntries` (its auto-generated recursor is mutual
with `JValue`, which the `induction` tactic cannot use directly). -/
theorem JEntries.spineInduction {motive : JEntries → Prop} (hnil : motive .nil)
    (hcons : ∀ k v rest, motive rest → motive (.cons k v rest)) : ∀ l, motive l
  | .nil => hnil
  | .cons k v rest => hcons k v rest (spineInduction hnil hcons rest)

/-- Writing one key does not disturb reads of a different key (`JEntries`). -/
theorem jget_jset_ne (t : JEntries) (k k' : String) (v : JValue) (h : k' ≠ k) :
    jget (jset t k' v) k = jget t k := by
  induction t using JEntries.spineInduction with
  | hnil => simp [jget, jset, h]
  | hcons a b rest ih =>
    by_cases ha : a = k'
    · subst ha
      simp [jget, jset, h]
    · simp only [jset, if_neg ha]
      by_cases hak : a = k
      · simp [jget, hak]
      · simp [jget, hak, ih]

/-- Writing one key does not disturb reads of a different key (assoc lists). -/
theorem getA_setA_ne {α : Type} (l : List (String × α)) (k k' : String) (v : α)
    (h : k' ≠ k) : getA (setA l k' v) k = getA l k := by
  induction l with
  | nil => simp [getA, setA, h]
  | cons a rest ih =>
    obtain ⟨ak, av⟩ := a
    by_cases hak : ak = k'
    · subst hak
      simp [getA, setA, h]
    · simp only [setA, if_neg hak]
      by_cases hk : ak = k
      · simp [getA, hk]
      · simp [getA, hk, ih]

/-- The `_getElementValues` loop never creates a key all of whose carriers
are skipped (empty name, `BUTTON` node, or disabled). -/
theorem getElementValuesLoop_absent (skip : Bool) (n : String) (all : List Element)
    (iter : List Element) (data : List (String × FieldValue))
    (h : ∀ e ∈ iter, e.name = n → n = "" ∨ e.nodeName = "BUTTON" ∨ e.disabled = true)
    (hd : getA data n = none) :
    getA (Form.getElementValuesLoop all skip iter data) n = none := by
  induction iter generalizing data with
  | nil => simpa [Form.getElementValuesLoop] using hd
  | cons e rest ih =>
    have hrest : ∀ e ∈ rest, e.name = n → n = "" ∨ e.nodeName = "BUTTON" ∨ e.disabled = true :=
      fun x hx => h x (List.mem_cons_of_mem _ hx)
    unfold Form.getElementValuesLoop
    split
    · exact ih _ hrest hd
    · rename_i hcond
      simp only [Bool.or_eq_true, decide_eq_true_eq, not_or] at hcond
      have hne : e.name ≠ n := by
        intro hn
        rcases h e (List.mem_cons_self _ _) hn with h1 | h1 | h1
        · exact hcond.1.1 (hn.trans h1)
        · exact hcond.1.2 (by simpa using h1)
        · simp [h1] at hcond
      cases Form.collectValue all data e with
      | none => exact ih _ hrest hd
      | some v =>
        simp only
        split
        · exact ih _ hrest hd
        · exact ih _ hrest (by rw [getA_setA_ne _ _ _ _ hne]; exact hd)

/-- Writing a fresh key appends it. -/
theorem setA_of_getA_none {α : Type} (l : List (String × α)) (k : String) (v : α)
    (h : getA l k = none) : setA l k v = l ++ [(k, v)] := by
  induction l with
  | nil => simp [setA]
  | cons a rest ih =>
    obtain ⟨ak, av⟩ := a
    simp only [getA] at h
    split at h
    · exact absurd h (by simp)
    · rename_i hk
      simp [setA, hk, ih h]

/-- Lookup distributes over append. -/
theorem getA_append {α : Type} (l l' : List (String × α)) (k : String) :
    getA (l ++ l') k = match getA l k with | some v => some v | none => getA l' k := by
  induction l with
  | nil => simp [getA]
  | cons a rest ih =>
    obtain ⟨ak, av⟩ := a
    by_cases hk : ak = k
    · simp [getA, hk]
    · simp [getA, hk, ih]

/-- Over enabled text inputs with fresh distinct names, the value
collection loop appends one `(name, value)` pair per element in order. -/
theorem getElementValuesLoop_text (all : List Element) (iter : List Element)
    (data : List (String × FieldValue))
    (ht : ∀ e ∈ iter, e.nodeName = "INPUT" ∧ e.etype = "text" ∧ e.disabled = false ∧ e.name ≠ "")
    (hfresh : ∀ e ∈ iter, getA data e.name = none)
    (hnodup : (iter.map (fun e => e.name)).Nodup) :
    Form.getElementValuesLoop all false iter data
      = data ++ iter.map (fun e => (e.name, FieldValue.s e.value)) := by
  induction iter generalizing data with
  | nil => simp [Form.getElementValuesLoop]
  | cons e rest ih =>
    obtain ⟨hnn, het, hdis, hne⟩ := ht e (List.mem_cons_self _ _)
    have hrest : ∀ x ∈ rest,
        x.nodeName = "INPUT" ∧ x.etype = "text" ∧ x.disabled = false ∧ x.name ≠ "" :=
      fun x hx => ht x (List.mem_cons_of_mem _ hx)
    simp only [List.map_cons, List.nodup_cons] at hnodup
    unfold Form.getElementValuesLoop
    rw [if_neg (by simp [hne, hnn, hdis])]
    have hcv : Form.collectValue all data e = some (.s e.value) := by
      simp [Form.collectValue, het]
    rw [hcv]
    simp only [Bool.false_and, Bool.false_eq_true, if_false]
    rw [setA_of_getA_none _ _ _ (hfresh e (List.mem_cons_self _ _))]
    rw [ih _ hrest ?_ hnodup.2]
    · simp
    · intro x hx
      rw [getA_append]
      rw [hfresh x (List.mem_cons_of_mem _ hx)]
      have hxne : e.name ≠ x.name := by
        intro hh
        exact hnodup.1 (hh ▸ List.mem_map_of_mem (fun e => e.name) hx)
      simp [getA, hxne]

/-- `_getElementValues` over a text-only form is the name/value list. -/
theorem getElementValues_text (elems : List Element)
    (ht : ∀ e ∈ elems, e.nodeName = "INPUT" ∧ e.etype = "text" ∧ e.disabled = false ∧ e.name ≠ "")
    (hnodup : (elems.map (fun e => e.name)).Nodup) :
    Form.getElementValues elems false = elems.map (fun e => (e.name, FieldValue.s e.value)) := by
  unfold Form.getElementValues
  rw [getElementValuesLoop_text elems elems [] ht (fun _ _ => rfl) hnodup]
  simp

/-- Word characters are not brackets. -/
theorem isWordChar_ne_bracket {c : Char} (h : isWordChar c = true) : c ≠ '[' ∧ c ≠ ']' := by
  constructor <;> rintro rfl <;> exact absurd h (by decide)

/-- An identifier is a non-empty run of word characters. -/
theorem identStr_spec {s : String} (h : identStr s = true) :
    s.data ≠ [] ∧ ∀ c ∈ s.data, isWordChar c = true := by
  unfold identStr at h
  split at h
  · simp at h
  · rename_i c rest hd
    simp only [Bool.and_eq_true, List.all_eq_true] at h
    refine ⟨by simp [hd], ?_⟩
    intro x hx
    rw [hd] at hx
    rcases List.mem_cons.mp hx with rfl | hx
    · simp [isWordChar, h.1]
    · exact h.2 x hx

/-- A named segment is a non-empty run of word characters. -/
theorem namedSeg_spec {s : String} (h : namedSeg s = true) :
    s.data ≠ [] ∧ ∀ c ∈ s.data, isWordChar c = true := by
  unfold namedSeg at h
  simp only [Bool.and_eq_true, Bool.not_eq_true', List.all_eq_true] at h
  exact ⟨by simpa using h.1.1, h.1.2⟩

theorem libTokensAux_nil (acc : List Char) :
    Form.libTokensAux [] acc = if acc.isEmpty then [] else [String.mk acc.reverse] := rfl

theorem libTokensAux_bracket (c : Char) (rest acc : List Char) (h : c = '[' ∨ c = ']') :
    Form.libTokensAux (c :: rest) acc
      = if acc.isEmpty then Form.libTokensAux rest []
        else String.mk acc.reverse :: Form.libTokensAux rest [] := by
  simp only [Form.libTokensAux]
  rw [if_pos (by simpa using h)]

theorem libTokensAux_nonbracket (c : Char) (rest acc : List Char)
    (h1 : c ≠ '[') (h2 : c ≠ ']') :
    Form.libTokensAux (c :: rest) acc = Form.libTokensAux rest (c :: acc) := by
  simp only [Form.libTokensAux]
  rw [if_neg (by simp [h1, h2])]

/-- The lib tokenizer accumulates a word run. -/
theorem libTokensAux_word (w rest : List Char) (acc : List Char)
    (hw : ∀ c ∈ w, isWordChar c = true) :
    Form.libTokensAux (w ++ rest) acc = Form.libTokensAux rest (w.reverse ++ acc) := by
  induction w generalizing acc with
  | nil => simp
  | cons c cw ih =>
    obtain ⟨h1, h2⟩ := isWordChar_ne_bracket (hw c (List.mem_cons_self _ _))
    rw [List.cons_append, libTokensAux_nonbracket c _ acc h1 h2]
    rw [ih _ (fun x hx => hw x (List.mem_cons_of_mem _ hx))]
    simp

/-- The lib tokenizer turns a bracket-segment suffix into its segment list. -/
theorem libTokensAux_segs (segs : List String) (acc : List Char)
    (hs : ∀ s ∈ segs, s.data ≠ [] ∧ ∀ c ∈ s.data, isWordChar c = true) :
    Form.libTokensAux (segsStr segs).data acc
      = (if acc.isEmpty then [] else [String.mk acc.reverse]) ++ segs := by
  induction segs generalizing acc with
  | nil =>
    show Form.libTokensAux [] acc = _
    rw [libTokensAux_nil]
    split <;> simp
  | cons s rest ih =>
    obtain ⟨hne, hword⟩ := hs s (List.mem_cons_self _ _)
    have hdata : (segsStr (s :: rest)).data = '[' :: (s.data ++ ']' :: (segsStr rest).data) := by
      show ("[" ++ s ++ "]" ++ segsStr rest).data = _
      simp [String.data_append]
    rw [hdata]
    rw [libTokensAux_bracket _ _ _ (Or.inl rfl)]
    have hrev : (s.data.reverse : List Char).isEmpty = false := by
      cases hsd : s.data with
      | nil => exact absurd hsd hne
      | cons a b => simp
    have hmain : Form.libTokensAux (s.data ++ ']' :: (segsStr rest).data) [] = s :: rest := by
      rw [libTokensAux_word s.data _ [] hword]
      rw [libTokensAux_bracket _ _ _ (Or.inr rfl)]
      rw [if_neg (by simp [hrev])]
      rw [ih _ (fun x hx => hs x (List.mem_cons_of_mem _ hx))]
      simp
    rw [hmain]
    split <;> simp

/-- `name.match(/[^\[\]]+/g)` recovers base and segments of a well-formed
bracket name. -/
theorem libTokens_render (p : NamePath) (hwf : wfPath p = true) :
    Form.libTokens (render p) = p.base :: p.segs := by
  unfold wfPath at hwf
  simp only [Bool.and_eq_true, List.all_eq_true] at hwf
  obtain ⟨hbne, hbw⟩ := identStr_spec hwf.1
  unfold Form.libTokens render
  have hdata : (p.base ++ segsStr p.segs).toList = p.base.data ++ (segsStr p.segs).data := by
    simp [String.toList, String.data_append]
  rw [hdata]
  rw [libTokensAux_word p.base.data _ [] hbw]
  rw [libTokensAux_segs _ _ (fun s hs => namedSeg_spec (hwf.2 s hs))]
  rw [if_neg (by simpa using hbne)]
  simp

/-- Letters are not digits. -/
theorem alpha_not_digit {c : Char} (h : isAlphaChar c = true) : isDigitChar c = false := by
  cases hd : isDigitChar c with
  | false => rfl
  | true =>
    have h' : ('a' ≤ c ∧ c ≤ 'z') ∨ ('A' ≤ c ∧ c ≤ 'Z') := by simpa [isAlphaChar] using h
    have hd' : '0' ≤ c ∧ c ≤ '9' := by simpa [isDigitChar] using hd
    rcases h' with ⟨h1, _⟩ | ⟨h1, _⟩
    · exact absurd (le_trans h1 hd'.2) (by decide)
    · exact absurd (le_trans h1 hd'.2) (by decide)

/-- An identifier is not matched by `/^\d+$/`. -/
theorem identStr_not_digits {s : String} (h : identStr s = true) :
    FormV1.isDigits s = false := by
  unfold identStr at h
  split at h
  · simp at h
  · rename_i c rest hd
    simp only [Bool.and_eq_true] at h
    unfold FormV1.isDigits
    rw [show s.toList = c :: rest from hd]
    simp [alpha_not_digit h.1]

/-- A named segment is not matched by `/^\d+$/` and is non-empty. -/
theorem namedSeg_not_digits {s : String} (h : namedSeg s = true) :
    FormV1.isDigits s = false ∧ s.toList ≠ [] := by
  unfold namedSeg at h
  simp only [Bool.and_eq_true, Bool.not_eq_true', List.all_eq_true] at h
  constructor
  · unfold FormV1.isDigits
    rw [show s.toList = s.data from rfl]
    rcases h with ⟨⟨_, _⟩, hnd⟩
    cases hall : s.data.all isDigitChar with
    | false => simp
    | true => exact absurd hall (by simp [hnd])
  · show s.data ≠ []
    simpa using h.1.1

/-- The token loop composes over appended token lists. -/
theorem buildNested_append (l l' : List String) (v : JValue) :
    Form.buildNested (l ++ l') v = Form.buildNested l' (Form.buildNested l v) := by
  induction l generalizing v with
  | nil => simp [Form.buildNested]
  | cons s rest ih =>
    rw [List.cons_append]
    show Form.buildNested (s :: (rest ++ l')) v = _
    simp only [Form.buildNested]
    split
    · rw [ih]
    · split
      · rw [ih]
      · rw [ih]

/-- Popping named segments builds the single-path nested object. -/
theorem buildNested_segs (segs : List String) (v : JValue)
    (hs : ∀ s ∈ segs, namedSeg s = true) :
    Form.buildNested segs.reverse v = nestSegs segs v := by
  induction segs generalizing v with
  | nil => rfl
  | cons s rest ih =>
    rw [List.reverse_cons, buildNested_append]
    rw [ih _ (fun x hx => hs x (List.mem_cons_of_mem _ hx))]
    obtain ⟨hd, hne⟩ := namedSeg_not_digits (hs s (List.mem_cons_self _ _))
    simp only [Form.buildNested, nestSegs]
    rw [if_neg (by simp [hd]), if_pos (by simpa using hne)]

/-- The lib `getData` fragment of a well-formed name is the single-path
object under its base identifier. -/
theorem buildNested_render (p : NamePath) (v : JValue) (hwf : wfPath p = true) :
    Form.buildNested (p.base :: p.segs).reverse v
      = .obj (.cons p.base (nestSegs p.segs v) .nil) := by
  unfold wfPath at hwf
  simp only [Bool.and_eq_true, List.all_eq_true] at hwf
  rw [List.reverse_cons, buildNested_append, buildNested_segs _ _ hwf.2]
  have hbne : p.base.data ≠ [] := (identStr_spec hwf.1).1
  simp only [Form.buildNested]
  rw [if_neg (by simp [identStr_not_digits hwf.1]), if_pos (by simpa using hbne)]

theorem noArrOpt_jget : ∀ {t : JEntries} {k : String}, noArrE t = true →
    noArrOpt (jget t k) = true
  | .nil, k, _ => by simp [jget, noArrOpt]
  | .cons a b rest, k, ht => by
    simp only [noArrE, Bool.and_eq_true] at ht
    simp only [jget]
    split
    · simpa [noArrOpt] using ht.1
    · exact noArrOpt_jget ht.2

theorem noArrE_jset : ∀ {t : JEntries} {k : String} {v : JValue},
    noArrE t = true → noArr v = true → noArrE (jset t k v) = true
  | .nil, k, v, _, hv => by simp [jset, noArrE, hv]
  | .cons a b rest, k, v, ht, hv => by
    simp only [noArrE, Bool.and_eq_true] at ht
    simp only [jset]
    split
    · simp [noArrE, hv, ht.2]
    · simp only [noArrE, Bool.and_eq_true]
      exact ⟨ht.1, noArrE_jset ht.2 hv⟩

theorem noArrOpt_objFields : ∀ {src : Option JValue}, noArrOpt src = true →
    noArrE (objFields src) = true := by
  intro src h
  match src with
  | none => simp [objFields, noArrE]
  | some (.str s) => simp [objFields, noArrE]
  | some (.arr l) => simp [objFields, noArrE]
  | some (.obj l) => simpa [objFields, noArrOpt, noArr] using h

mutual
/-- Deep extend of array-free values is array-free. -/
theorem noArr_mergeCopy : ∀ (src : Option JValue) (s : JValue),
    noArrOpt src = true → noArr s = true → noArr (mergeCopy src s) = true
  | src, .str v, _, _ => by simp [mergeCopy, noArr]
  | src, .arr sl, _, hs => by simp [noArr] at hs
  | src, .obj sl, ht, hs => by
    simp only [mergeCopy, noArr]
    exact noArrE_extendEntries _ _ (noArrOpt_objFields ht) (by simpa [noArr] using hs)
termination_by src s _ _ => sizeOf s

/-- Entry-list companion of `noArr_mergeCopy`. -/
theorem noArrE_extendEntries : ∀ (t s : JEntries),
    noArrE t = true → noArrE s = true → noArrE (extendEntries t s) = true
  | t, .nil, ht, _ => by simpa [extendEntries] using ht
  | t, .cons k v rest, ht, hs => by
    simp only [noArrE, Bool.and_eq_true] at hs
    simp only [extendEntries]
    exact noArrE_extendEntries _ rest
      (noArrE_jset ht (noArr_mergeCopy (jget t k) v (noArrOpt_jget ht) hs.1)) hs.2
termination_by t s _ _ => sizeOf s
end

theorem buildParams_str (pfx : String) (v : String) :
    buildParams pfx (.str v) = [(pfx, v)] := by
  simp [buildParams]

theorem buildParams_obj (pfx : String) (l : JEntries) :
    buildParams pfx (.obj l) = buildParamsObj pfx l := by
  simp [buildParams]

theorem buildParamsObj_eq (pfx : String) : ∀ l : JEntries,
    buildParamsObj pfx l = entriesPairs (fun k => pfx ++ "[" ++ k ++ "]") l
  | .nil => by simp [buildParamsObj, entriesPairs]
  | .cons k v rest => by
    simp only [buildParamsObj, entriesPairs]
    rw [buildParamsObj_eq pfx rest]

theorem paramPairsTop_eq : ∀ l : JEntries,
    paramPairsTop l = entriesPairs (fun k => k) l
  | .nil => by simp [paramPairsTop, entriesPairs]
  | .cons k v rest => by
    simp only [paramPairsTop, entriesPairs]
    rw [paramPairsTop_eq rest]

/-- Pairs of a written entry list come from the old list or from the
written value. -/
theorem mem_entriesPairs_jset (g : String → String) :
    ∀ (t : JEntries) (k : String) (m : JValue) (x : String × String),
    x ∈ entriesPairs g (jset t k m) → x ∈ entriesPairs g t ∨ x ∈ buildParams (g k) m
  | .nil, k, m, x, hx => by
    simp only [jset, entriesPairs, List.append_nil] at hx
    exact Or.inr hx
  | .cons a b rest, k, m, x, hx => by
    simp only [jset] at hx
    split at hx
    · rename_i hak
      simp only [entriesPairs, List.mem_append] at hx ⊢
      rcases hx with hx | hx
      · exact Or.inr (hak ▸ hx)
      · exact Or.inl (Or.inr hx)
    · simp only [entriesPairs, List.mem_append] at hx ⊢
      rcases hx with hx | hx
      · exact Or.inl (Or.inl hx)
      · rcases mem_entriesPairs_jset g rest k m x hx with h | h
        · exact Or.inl (Or.inr h)
        · exact Or.inr h

/-- Pairs of a looked-up value are pairs of the container. -/
theorem buildParams_jget_sub (g : String → String) :
    ∀ (t : JEntries) (k : String) (u : JValue), jget t k = some u →
    ∀ x ∈ buildParams (g k) u, x ∈ entriesPairs g t
  | .nil, k, u, h, x, hx => by simp [jget] at h
  | .cons a b rest, k, u, h, x, hx => by
    simp only [jget] at h
    simp only [entriesPairs, List.mem_append]
    split at h
    · rename_i hak
      cases h
      exact Or.inl (hak ▸ hx)
    · exact Or.inr (buildParams_jget_sub g rest k u h x hx)

mutual
/-- Every `$.param` pair of a deep-extended value comes from the previous
value or from the incoming copy (array-free case). -/
theorem mem_buildParams_mergeCopy : ∀ (pfx : String) (src : Option JValue) (copy : JValue),
    noArrOpt src = true → noArr copy = true →
    ∀ x ∈ buildParams pfx (mergeCopy src copy),
      (∃ u, src = some u ∧ x ∈ buildParams pfx u) ∨ x ∈ buildParams pfx copy
  | pfx, src, .str v, _, _, x, hx => Or.inr (by simpa [mergeCopy] using hx)
  | pfx, src, .arr sl, _, hs, x, hx => by simp [noArr] at hs
  | pfx, src, .obj sl, ht, hs, x, hx => by
    rw [show mergeCopy src (.obj sl) = .obj (extendEntries (objFields src) sl) from rfl] at hx
    rw [buildParams_obj, buildParamsObj_eq] at hx
    rcases mem_entriesPairs_extendEntries _ (objFields src) sl
        (noArrOpt_objFields ht) (by simpa [noArr] using hs) x hx with h | h
    · left
      match src, h with
      | some (.obj tl), h =>
        refine ⟨.obj tl, rfl, ?_⟩
        rw [buildParams_obj, buildParamsObj_eq]
        simpa [objFields] using h
      | none, h => simp [objFields, entriesPairs] at h
      | some (.str s), h => simp [objFields, entriesPairs] at h
      | some (.arr l), h => simp [objFields, entriesPairs] at h
    · right
      rw [buildParams_obj, buildParamsObj_eq]
      exact h
termination_by pfx src copy _ _ => sizeOf copy

/-- Entry-list companion of `mem_buildParams_mergeCopy`. -/
theorem mem_entriesPairs_extendEntries : ∀ (g : String → String) (t s : JEntries),
    noArrE t = true → noArrE s = true →
    ∀ x ∈ entriesPairs g (extendEntries t s), x ∈ entriesPairs g t ∨ x ∈ entriesPairs g s
  | g, t, .nil, _, _, x, hx => Or.inl (by simpa [extendEntries] using hx)
  | g, t, .cons k v rest, ht, hs, x, hx => by
    simp only [noArrE, Bool.and_eq_true] at hs
    simp only [extendEntries] at hx
    have hm : noArr (mergeCopy (jget t k) v) = true :=
      noArr_mergeCopy (jget t k) v (noArrOpt_jget ht) hs.1
    rcases mem_entriesPairs_extendEntries g _ rest (noArrE_jset ht hm) hs.2 x hx with h | h
    · rcases mem_entriesPairs_jset g t k _ x h with h' | h'
      · exact Or.inl h'
      · rcases mem_buildParams_mergeCopy (g k) (jget t k) v (noArrOpt_jget ht) hs.1 x h'
          with ⟨u, hu, hxu⟩ | h''
        · exact Or.inl (buildParams_jget_sub g t k u hu x hxu)
        · exact Or.inr (by simp only [entriesPairs, List.mem_append]; exact Or.inl h'')
    · exact Or.inr (by simp only [entriesPairs, List.mem_append]; exact Or.inr h)
termination_by g t s _ _ => sizeOf s
end

/-- `$.param` of a single-path nested object yields its one leaf pair. -/
theorem buildParams_nestSegs : ∀ (segs : List String) (pfx : String) (v : String),
    buildParams pfx (nestSegs segs (.str v)) = [(pfx ++ segsStr segs, v)]
  | [], pfx, v => by simp [nestSegs, buildParams_str, segsStr]
  | s :: rest, pfx, v => by
    simp only [nestSegs]
    rw [buildParams_obj]
    simp only [buildParamsObj]
    rw [buildParams_nestSegs rest _ v]
    simp [segsStr, String.append_assoc]

theorem noArr_nestSegs : ∀ (segs : List String) (v : String),
    noArr (nestSegs segs (.str v)) = true
  | [], v => by simp [nestSegs, noArr]
  | s :: rest, v => by
    simp only [nestSegs, noArr, noArrE, Bool.and_eq_true]
    exact ⟨noArr_nestSegs rest v, trivial⟩

theorem paramPairs_fragment (p : NamePath) (v : String) :
    paramPairs (.obj (.cons p.base (nestSegs p.segs (.str v)) .nil)) = [(render p, v)] := by
  simp only [paramPairs, paramPairsTop]
  rw [buildParams_nestSegs]
  simp [render]

/-- Pairs of `$.extend(true, tree, frag)` come from the tree or the
fragment (array-free case). -/
theorem mem_paramPairs_jextend (tree frag : JValue) (hna : noArr tree = true)
    (hnf : noArr frag = true) (hobj : ∃ l, frag = .obj l) (x : String × String)
    (hx : x ∈ paramPairs (jextend tree frag)) :
    x ∈ paramPairs tree ∨ x ∈ paramPairs frag := by
  obtain ⟨fl, rfl⟩ := hobj
  rw [show jextend tree (.obj fl) = .obj (extendEntries (objFields (some tree)) fl) from rfl]
    at hx
  simp only [paramPairs] at hx
  rw [paramPairsTop_eq] at hx
  rcases mem_entriesPairs_extendEntries _ (objFields (some tree)) fl
      (noArrOpt_objFields (by simpa [noArrOpt] using hna))
      (by simpa [noArr] using hnf) x hx with h | h
  · left
    match tree, h with
    | .obj tl, h =>
      simp only [paramPairs]
      rw [paramPairsTop_eq]
      simpa [objFields] using h
    | .str s, h => simp [objFields, entriesPairs] at h
    | .arr l, h => simp [objFields, entriesPairs] at h
  · right
    simp only [paramPairs]
    rw [paramPairsTop_eq]
    exact h

/-- Every `$.param` pair of the lib `getData` fold over well-formed
fragments satisfies any predicate covering the initial tree and the
fragments' leaves. -/
theorem getData_fold_pairs (Q : String × String → Prop) :
    ∀ (flat : List (String × FieldValue)) (tree : JValue),
    noArr tree = true →
    (∀ x ∈ paramPairs tree, Q x) →
    (∀ kv ∈ flat, ∃ (p : NamePath) (v : String),
        kv = (render p, .s v) ∧ wfPath p = true ∧ Q (render p, v)) →
    ∀ x ∈ paramPairs (flat.foldl
        (fun data kv =>
          jextend data (Form.buildNested (Form.libTokens kv.1).reverse (Form.fvToJValue kv.2)))
        tree), Q x := by
  intro flat
  induction flat with
  | nil =>
    intro tree hna hq _ x hx
    exact hq x hx
  | cons kv rest ih =>
    intro tree hna hq hflat x hx
    simp only [List.foldl_cons] at hx
    obtain ⟨p, v, hkv, hwf, hQ⟩ := hflat kv (List.mem_cons_self _ _)
    subst hkv
    rw [show Form.fvToJValue (.s v) = .str v from rfl] at hx
    rw [libTokens_render p hwf, buildNested_render p _ hwf] at hx
    have hfrag : noArr (.obj (.cons p.base (nestSegs p.segs (.str v)) .nil)) = true := by
      simp [noArr, noArrE, noArr_nestSegs]
    refine ih _ ?_ ?_ (fun z hz => hflat z (List.mem_cons_of_mem _ hz)) x hx
    · exact noArr_mergeCopy _ _ (by simpa [noArrOpt] using hna) hfrag
    · intro y hy
      rcases mem_paramPairs_jextend tree _ hna hfrag ⟨_, rfl⟩ y hy with h | h
      · exact hq y h
      · rw [paramPairs_fragment] at h
        simp only [List.mem_singleton] at h
        subst h
        exact hQ

theorem mem_concatMap {α β : Type} (f : α → List β) :
    ∀ (l : List α) (x : β), x ∈ concatMap f l ↔ ∃ a ∈ l, x ∈ f a
  | [], x => by simp [concatMap]
  | a :: rest, x => by
    simp only [concatMap, List.mem_append, mem_concatMap f rest x]
    constructor
    · rintro (h | ⟨b, hb, hx⟩)
      · exact ⟨a, List.mem_cons_self _ _, h⟩
      · exact ⟨b, List.mem_cons_of_mem _ hb, hx⟩
    · rintro ⟨b, hb, hx⟩
      rcases List.mem_cons.mp hb with rfl | hb
      · exact Or.inl hx
      · exact Or.inr ⟨b, hb, hx⟩

theorem decodeChars_cons_ne (c : Char) (rest : List Char) (h : c ≠ '%') :
    decodeChars (c :: rest) = c :: decodeChars rest := by
  conv_lhs => rw [decodeChars.eq_def]
  exact if_neg h

theorem hexVal_hexDigitChar : ∀ n, n < 16 → hexVal (hexDigitChar n) = some n := by decide

theorem decodeChars_percent (n : Nat) (rest : List Char) (hn : n < 256) :
    decodeChars (percentByte n ++ rest) = Char.ofNat n :: decodeChars rest := by
  have h1 := hexVal_hexDigitChar (n / 16) (by omega)
  have h2 := hexVal_hexDigitChar (n % 16) (by omega)
  have hnm : 16 * (n / 16) + n % 16 = n := by omega
  calc decodeChars (percentByte n ++ rest)
      = (match hexVal (hexDigitChar (n / 16)), hexVal (hexDigitChar (n % 16)) with
         | some a, some b => Char.ofNat (16 * a + b) :: decodeChars rest
         | _, _ =>
           '%' :: decodeChars (hexDigitChar (n / 16) :: hexDigitChar (n % 16) :: rest)) := rfl
    _ = Char.ofNat (16 * (n / 16) + n % 16) :: decodeChars rest := by rw [h1, h2]
    _ = Char.ofNat n :: decodeChars rest := by rw [hnm]

theorem unreserved_ne_percent {c : Char} (h : unreservedChar c = true) : c ≠ '%' := by
  rintro rfl
  exact absurd h (by decide)

theorem encodeChar_ascii_nonres {c : Char} (h : unreservedChar c = false)
    (hlt : c.toNat < 128) : encodeChar c = percentByte c.toNat := by
  simp [encodeChar, h, utf8Bytes, hlt, concatMap]

/-- Percent-decoding inverts percent-encoding on ASCII text. -/
theorem decode_encode_chars : ∀ (cs : List Char), (∀ c ∈ cs, c.toNat < 128) →
    decodeChars (concatMap encodeChar cs) = cs
  | [], _ => rfl
  | c :: rest, h => by
    have hc := h c (List.mem_cons_self _ _)
    have hrest := fun x hx => h x (List.mem_cons_of_mem _ hx)
    simp only [concatMap]
    cases hu : unreservedChar c with
    | true =>
      rw [show encodeChar c = [c] from by simp [encodeChar, hu]]
      rw [List.singleton_append, decodeChars_cons_ne c _ (unreserved_ne_percent hu)]
      rw [decode_encode_chars rest hrest]
    | false =>
      rw [encodeChar_ascii_nonres hu hc]
      rw [decodeChars_percent _ _ (by omega)]
      rw [Char.ofNat_toNat, decode_encode_chars rest hrest]

/-- `decodeURIComponent ∘ encodeURIComponent` is the identity on ASCII
strings. -/
theorem decode_encode (s : String) (h : asciiStr s) :
    decodeURIComponent (encodeURIComponent s) = s := by
  unfold decodeURIComponent encodeURIComponent
  rw [show (String.mk (concatMap encodeChar s.toList)).toList = concatMap encodeChar s.toList
    from rfl]
  rw [show s.toList = s.data from rfl]
  rw [decode_encode_chars s.data h]

theorem char_toNat_lt (c : Char) : c.toNat < 1114112 := by
  have := c.valid
  rcases this with h | ⟨h1, h2⟩ <;> simp [Char.toNat] <;> omega

theorem utf8Bytes_lt (n : Nat) (hn : n < 1114112) : ∀ b ∈ utf8Bytes n, b < 256 := by
  intro b hb
  unfold utf8Bytes at hb
  split at hb
  · simp at hb; omega
  · split at hb
    · simp at hb; rcases hb with rfl | rfl <;> omega
    · split at hb
      · simp at hb; rcases hb with rfl | rfl | rfl <;> omega
      · simp at hb; rcases hb with rfl | rfl | rfl | rfl <;> omega

theorem hexDigitChar_ne_sep : ∀ n, n < 16 →
    hexDigitChar n ≠ '&' ∧ hexDigitChar n ≠ '=' := by decide

/-- URL-encoded output never contains the separators `&` or `=`. -/
theorem encodeChar_ne_sep (c : Char) : ∀ c' ∈ encodeChar c, c' ≠ '&' ∧ c' ≠ '=' := by
  intro c' hc'
  unfold encodeChar at hc'
  split at hc'
  · rename_i hu
    simp at hc'
    subst hc'
    constructor <;> rintro rfl <;> exact absurd hu (by decide)
  · obtain ⟨b, hb, hcb⟩ := (mem_concatMap percentByte _ c').mp hc'
    have hblt := utf8Bytes_lt c.toNat (char_toNat_lt c) b hb
    simp only [percentByte, List.mem_cons, List.not_mem_nil, or_false] at hcb
    rcases hcb with rfl | rfl | rfl
    · exact ⟨by decide, by decide⟩
    · exact hexDigitChar_ne_sep (b / 16) (by omega)
    · exact hexDigitChar_ne_sep (b % 16) (by omega)

theorem encodeURIComponent_ne_sep (s : String) :
    ∀ c ∈ (encodeURIComponent s).data, c ≠ '&' ∧ c ≠ '=' := by
  intro c hc
  rw [show (encodeURIComponent s).data = concatMap encodeChar s.toList from rfl] at hc
  obtain ⟨a, _, hca⟩ := (mem_concatMap encodeChar _ c).mp hc
  exact encodeChar_ne_sep a c hca

theorem splitChar_ne_nil (sep : Char) : ∀ l : List Char, splitChar sep l ≠ []
  | [] => by simp [splitChar]
  | c :: rest => by
    simp only [splitChar]
    cases h : splitChar sep rest with
    | nil => exact absurd h (splitChar_ne_nil sep rest)
    | cons g gs =>
      simp only [splitCons]
      split <;> simp

theorem splitChar_nosep (sep : Char) : ∀ a : List Char, sep ∉ a → splitChar sep a = [a]
  | [], _ => rfl
  | c :: rest, h => by
    simp only [splitChar]
    rw [splitChar_nosep sep rest (fun hh => h (List.mem_cons_of_mem _ hh))]
    simp only [splitCons]
    rw [if_neg (fun hc : c = sep => h (hc ▸ List.mem_cons_self _ _))]

theorem splitChar_append (sep : Char) : ∀ (a rest : List Char), sep ∉ a →
    splitChar sep (a ++ sep :: rest) = a :: splitChar sep rest
  | [], rest, _ => by
    simp only [List.nil_append, splitChar]
    cases h : splitChar sep rest with
    | nil => exact absurd h (splitChar_ne_nil sep rest)
    | cons g gs => simp [splitCons]
  | c :: a', rest, h => by
    simp only [List.cons_append, splitChar]
    show splitCons c sep (splitChar sep (a' ++ sep :: rest)) = _
    rw [splitChar_append sep a' rest (fun hh => h (List.mem_cons_of_mem _ hh))]
    simp only [splitCons]
    rw [if_neg (fun hc : c = sep => h (hc ▸ List.mem_cons_self _ _))]

theorem joinSep_data_cons (sepStr : String) (x y : String) (rest : List String) :
    (joinSep sepStr (x :: y :: rest)).data
      = x.data ++ sepStr.data ++ (joinSep sepStr (y :: rest)).data := by
  show (x ++ sepStr ++ joinSep sepStr (y :: rest)).data = _
  simp [String.data_append]

/-- Splitting inverts joining when no part contains the separator. -/
theorem splitChar_join (sep : Char) (sepStr : String) (hsep : sepStr.data = [sep]) :
    ∀ parts : List String, parts ≠ [] → (∀ p ∈ parts, sep ∉ p.data) →
    splitChar sep (joinSep sepStr parts).data = parts.map String.data
  | [], hne, _ => absurd rfl hne
  | [x], _, h => by
    show splitChar sep x.data = _
    rw [splitChar_nosep sep x.data (h x (List.mem_cons_self _ _))]
    simp
  | x :: y :: rest, _, h => by
    rw [joinSep_data_cons, hsep]
    rw [List.append_assoc, List.singleton_append]
    rw [splitChar_append sep _ _ (h x (List.mem_cons_self _ _))]
    rw [splitChar_join sep sepStr hsep (y :: rest) (by simp)
      (fun p hp => h p (List.mem_cons_of_mem _ hp))]
    simp

theorem splitChar_pair (a b : List Char) (ha : '=' ∉ a) (hb : '=' ∉ b) :
    splitChar '=' (a ++ '=' :: b) = [a, b] := by
  rw [splitChar_append _ a b ha, splitChar_nosep _ b hb]

theorem char_le_toNat {c d : Char} (h : c ≤ d) : c.toNat ≤ d.toNat := h

/-- Word characters are ASCII. -/
theorem isWordChar_ascii {c : Char} (h : isWordChar c = true) : c.toNat < 128 := by
  have h' : (('a' ≤ c ∧ c ≤ 'z') ∨ ('A' ≤ c ∧ c ≤ 'Z')) ∨ ('0' ≤ c ∧ c ≤ '9') ∨ c = '_' := by
    simpa [isWordChar, isAlphaChar, isDigitChar, or_assoc] using h
  rcases h' with (⟨_, h2⟩ | ⟨_, h2⟩) | (⟨_, h2⟩ | rfl)
  · have := char_le_toNat h2
    have hz : ('z').toNat = 122 := rfl
    omega
  · have := char_le_toNat h2
    have hz : ('Z').toNat = 90 := rfl
    omega
  · have := char_le_toNat h2
    have hz : ('9').toNat = 57 := rfl
    omega
  · decide



-- spec-level digits, by well-founded recursion (proofs only)
def digitsOfWF (n : Nat) : List Char :=
  if h : n < 10 then [Char.ofNat (48 + n)]
  else digitsOfWF (n / 10) ++ [Char.ofNat (48 + n % 10)]
termination_by n
decreasing_by
  omega

/-- The value a digit list denotes (the parser inside `canonIdx`). -/
def parseDigits (cs : List Char) : Nat :=
  cs.foldl (fun a c => a * 10 + (c.toNat - 48)) 0

theorem digitChar_eq : ∀ m, m < 10 → Nat.digitChar m = Char.ofNat (48 + m) := by decide

theorem toDigitsCore_spec : ∀ (fuel n : Nat) (ds : List Char), n < fuel →
    Nat.toDigitsCore 10 fuel n ds = digitsOfWF n ++ ds := by
  intro fuel
  induction fuel with
  | zero => intro n ds h; omega
  | succ f ih =>
    intro n ds h
    unfold Nat.toDigitsCore
    by_cases h10 : n < 10
    · have hz : n / 10 = 0 := by omega
      rw [if_pos hz]
      rw [digitsOfWF, dif_pos h10]
      rw [digitChar_eq (n % 10) (by omega)]
      rw [show n % 10 = n from by omega]
      simp
    · have hz : ¬(n / 10 = 0) := by omega
      rw [if_neg hz]
      rw [ih (n / 10) _ (by omega)]
      conv_rhs => rw [digitsOfWF, dif_neg h10]
      rw [digitChar_eq (n % 10) (by omega)]
      simp

theorem toString_nat_data (n : Nat) : (toString n).data = digitsOfWF n := by
  show (Nat.toDigits 10 n).asString.data = _
  unfold Nat.toDigits
  rw [toDigitsCore_spec (n + 1) n [] (by omega)]
  simp [List.asString]

theorem digit_char_toNat : ∀ m, m < 10 → (Char.ofNat (48 + m)).toNat = 48 + m := by decide

theorem digit_char_isDigit : ∀ m, m < 10 → isDigitChar (Char.ofNat (48 + m)) = true := by decide

theorem digit_char_zero : ∀ m, m < 10 → ((Char.ofNat (48 + m)) = '0' ↔ m = 0) := by decide

theorem digitsOfWF_ne_nil (n : Nat) : digitsOfWF n ≠ [] := by
  unfold digitsOfWF
  split <;> simp

theorem digitsOfWF_digits (n : Nat) : ∀ c ∈ digitsOfWF n, isDigitChar c = true := by
  induction n using Nat.strong_induction_on with
  | _ n ih =>
    intro c hc
    unfold digitsOfWF at hc
    split at hc
    · simp at hc
      subst hc
      exact digit_char_isDigit n (by omega)
    · rename_i h10
      rcases List.mem_append.mp hc with hc | hc
      · exact ih (n / 10) (by omega) c hc
      · simp at hc
        subst hc
        exact digit_char_isDigit (n % 10) (by omega)

theorem digitsOfWF_head (n : Nat) (hn : 1 ≤ n) :
    ∀ rest, digitsOfWF n ≠ '0' :: rest := by
  induction n using Nat.strong_induction_on with
  | _ n ih =>
    intro rest h
    unfold digitsOfWF at h
    split at h
    · rename_i h10
      simp at h
      have := (digit_char_zero n (by omega)).mp h.1
      omega
    · rename_i h10
      cases hd : digitsOfWF (n / 10) with
      | nil => exact digitsOfWF_ne_nil _ hd
      | cons c0 crest =>
        rw [hd] at h
        simp at h
        exact ih (n / 10) (by omega) (by omega) crest (by rw [hd, h.1])

theorem parseDigits_append_one (cs : List Char) (d : Char) :
    parseDigits (cs ++ [d]) = parseDigits cs * 10 + (d.toNat - 48) := by
  unfold parseDigits
  rw [List.foldl_append]
  rfl

theorem parseDigits_digitsOfWF (n : Nat) : parseDigits (digitsOfWF n) = n := by
  induction n using Nat.strong_induction_on with
  | _ n ih =>
    unfold digitsOfWF
    split
    · rename_i h10
      show parseDigits [Char.ofNat (48 + n)] = n
      unfold parseDigits
      simp [digit_char_toNat n h10]
    · rename_i h10
      rw [parseDigits_append_one]
      rw [ih (n / 10) (by omega)]
      rw [digit_char_toNat (n % 10) (by omega)]
      omega

theorem digit_char_of_toNat {d : Char} (hd : isDigitChar d = true) :
    Char.ofNat (48 + (d.toNat - 48)) = d := by
  have h' : '0' ≤ d ∧ d ≤ '9' := by simpa [isDigitChar] using hd
  have h1 : 48 ≤ d.toNat := char_le_toNat h'.1
  have h2 : d.toNat ≤ 57 := char_le_toNat h'.2
  rw [show 48 + (d.toNat - 48) = d.toNat from by omega]
  exact Char.ofNat_toNat d

theorem parseDigits_ge (cs : List Char) (a : Nat) :
    a ≤ cs.foldl (fun a c => a * 10 + (c.toNat - 48)) a := by
  induction cs generalizing a with
  | nil => simp
  | cons c rest ih =>
    simp only [List.foldl_cons]
    calc a ≤ a * 10 + (c.toNat - 48) := by omega
    _ ≤ _ := ih _

theorem parseDigits_pos (c : Char) (rest : List Char) (hc : isDigitChar c = true)
    (hc0 : c ≠ '0') : 1 ≤ parseDigits (c :: rest) := by
  have h' : '0' ≤ c ∧ c ≤ '9' := by simpa [isDigitChar] using hc
  have h1 : 48 ≤ c.toNat := char_le_toNat h'.1
  have hne : c.toNat ≠ 48 := by
    intro h
    apply hc0
    have := Char.ofNat_toNat c
    rw [h] at this
    rw [← this]
  unfold parseDigits
  simp only [List.foldl_cons]
  calc 1 ≤ c.toNat - 48 := by omega
  _ = 0 * 10 + (c.toNat - 48) := by omega
  _ ≤ _ := parseDigits_ge rest _

theorem digitsOfWF_parseDigits : ∀ (cs : List Char), cs ≠ [] →
    (∀ c ∈ cs, isDigitChar c = true) →
    (∀ rest, cs ≠ '0' :: rest) ∨ cs = ['0'] →
    digitsOfWF (parseDigits cs) = cs := by
  intro cs
  induction cs using List.reverseRecOn with
  | nil => intro h; exact absurd rfl h
  | append_singleton as d ih =>
    intro _ hdig hcanon
    rcases List.eq_nil_or_concat as with rfl | ⟨as', d', hcat⟩
    · have hd := hdig d (by simp)
      have h' : '0' ≤ d ∧ d ≤ '9' := by simpa [isDigitChar] using hd
      have h1 : 48 ≤ d.toNat := char_le_toNat h'.1
      have h2 : d.toNat ≤ 57 := char_le_toNat h'.2
      show digitsOfWF (parseDigits [d]) = [d]
      have hp : parseDigits [d] = d.toNat - 48 := by
        unfold parseDigits
        simp
      rw [hp]
      unfold digitsOfWF
      rw [dif_pos (by omega)]
      rw [digit_char_of_toNat hd]
    · have hasne : as ≠ [] := by
        rw [hcat]
        simp
      have hd := hdig d (by simp)
      have hdigas : ∀ c ∈ as, isDigitChar c = true :=
        fun c hc => hdig c (List.mem_append.mpr (Or.inl hc))
      obtain ⟨a0, arest, has⟩ : ∃ a0 arest, as = a0 :: arest := by
        cases as with
        | nil => exact absurd rfl hasne
        | cons x xs => exact ⟨x, xs, rfl⟩
      have ha0 : a0 ≠ '0' := by
        rcases hcanon with hcanon | hcanon
        · intro h
          exact hcanon (arest ++ [d]) (by rw [has, h]; simp)
        · rw [has] at hcanon
          simp at hcanon
      have hpos : 1 ≤ parseDigits as := by
        rw [has]
        exact parseDigits_pos a0 arest (hdigas a0 (by rw [has]; exact List.mem_cons_self _ _)) ha0
      have h' : '0' ≤ d ∧ d ≤ '9' := by simpa [isDigitChar] using hd
      have h1 : 48 ≤ d.toNat := char_le_toNat h'.1
      have h2 : d.toNat ≤ 57 := char_le_toNat h'.2
      rw [parseDigits_append_one]
      have hv10 : ¬(parseDigits as * 10 + (d.toNat - 48) < 10) := by omega
      unfold digitsOfWF
      rw [dif_neg hv10]
      have hdiv : (parseDigits as * 10 + (d.toNat - 48)) / 10 = parseDigits as := by omega
      have hmod : (parseDigits as * 10 + (d.toNat - 48)) % 10 = d.toNat - 48 := by omega
      rw [hdiv, hmod]
      rw [ih hasne hdigas ?_, digit_char_of_toNat hd]
      rcases hcanon with hcanon | hcanon
      · left
        intro rest h
        exact hcanon (rest ++ [d]) (by rw [h]; simp)
      · rw [has] at hcanon ⊢
        simp at hcanon

theorem canonIdx_toString (n : Nat) : canonIdx (toString n) = some n := by
  have hdata : (toString n).toList = digitsOfWF n := toString_nat_data n
  by_cases h0 : n = 0
  · subst h0
    rfl
  · unfold canonIdx
    rw [hdata]
    obtain ⟨c, rest, hcr⟩ : ∃ c rest, digitsOfWF n = c :: rest := by
      cases hd : digitsOfWF n with
      | nil => exact absurd hd (digitsOfWF_ne_nil n)
      | cons x xs => exact ⟨x, xs, rfl⟩
    have hc0 : c ≠ '0' := by
      intro h
      exact digitsOfWF_head n (by omega) rest (by rw [hcr, h])
    have hcd : isDigitChar c = true :=
      digitsOfWF_digits n c (by rw [hcr]; exact List.mem_cons_self _ _)
    have hrd : rest.all isDigitChar = true := by
      rw [List.all_eq_true]
      intro x hx
      exact digitsOfWF_digits n x (by rw [hcr]; exact List.mem_cons_of_mem _ hx)
    rw [hcr]
    split
    · rename_i heq
      simp at heq
    · rename_i heq
      simp at heq
      exact absurd heq.1 hc0
    · rename_i l0 c2 rest2 hno heq
      injection heq with h1 h2
      subst h1
      subst h2
      rw [if_pos (by simp [hcd, hc0, hrd])]
      have hfold : List.foldl (fun n ch => n * 10 + (ch.toNat - 48)) 0 (c :: rest)
          = parseDigits (c :: rest) := rfl
      rw [hfold, ← hcr, parseDigits_digitsOfWF]

theorem canonIdx_print {k : String} {j : Nat} (h : canonIdx k = some j) :
    toString j = k := by
  unfold canonIdx at h
  split at h
  · exact absurd h (by simp)
  · rename_i heq
    cases h
    show toString 0 = k
    cases k with
    | mk data =>
      have : data = ['0'] := heq
      rw [this]
      rfl
  · rename_i l0 c rest hno heq
    split at h
    · rename_i hcond
      cases h
      simp at hcond
      have hdig : ∀ x ∈ c :: rest, isDigitChar x = true := by
        intro x hx
        rcases List.mem_cons.mp hx with rfl | hx
        · exact hcond.1.1
        · exact hcond.2 x hx
      have hcanon : (∀ r, (c :: rest) ≠ '0' :: r) ∨ (c :: rest) = ['0'] := by
        left
        intro r hr
        injection hr with h1 h2
        exact hcond.1.2 h1
      have hparse : digitsOfWF (parseDigits (c :: rest)) = c :: rest :=
        digitsOfWF_parseDigits (c :: rest) (by simp) hdig hcanon
      have hfold : k.toList.foldl (fun n ch => n * 10 + (ch.toNat - 48)) 0
          = parseDigits (c :: rest) := by
        rw [heq]
        rfl
      rw [hfold]
      have hdd : (toString (parseDigits (c :: rest))).data = k.data := by
        rw [toString_nat_data, hparse]
        exact heq.symm
      exact String.ext hdd
    · exact absurd h (by simp)



/-- Whether an own property named `k` exists. -/
def keyMem (k : String) : JEntries → Bool
  | .nil => false
  | .cons k' _ rest => k' = k || keyMem k rest

mutual
/-- Distinct own-property keys at every level, as JavaScript objects and
arrays have by construction. -/
def dk : JValue → Bool
  | .str _ => true
  | .arr l => dkE l
  | .obj l => dkE l

def dkE : JEntries → Bool
  | .nil => true
  | .cons k v rest => !keyMem k rest && dk v && dkE rest
end

def dkOpt : Option JValue → Bool
  | none => true
  | some v => dk v

theorem jget_eq_none_of_keyMem (k : String) :
    ∀ l : JEntries, keyMem k l = false → jget l k = none := by
  intro l
  induction l using JEntries.spineInduction with
  | hnil => intro h; rfl
  | hcons k' v rest ih =>
    intro h
    simp [keyMem] at h
    simp [jget, h.1]
    exact ih h.2

theorem jget_jset_self (l : JEntries) (k : String) (v : JValue) :
    jget (jset l k v) k = some v := by
  induction l using JEntries.spineInduction with
  | hnil => simp [jset, jget]
  | hcons k' v' rest ih =>
    by_cases h : k' = k
    · simp [jset, h, jget]
    · simp [jset, h, jget]
      exact ih

theorem keyMem_jset (l : JEntries) (k k' : String) (v : JValue) :
    keyMem k' (jset l k v) = (keyMem k' l || k = k') := by
  induction l using JEntries.spineInduction with
  | hnil => simp [jset, keyMem]
  | hcons k0 v0 rest ih =>
    by_cases h : k0 = k
    · subst h
      simp [jset, keyMem]
      tauto
    · simp [jset, h, keyMem, ih]
      by_cases h0 : k0 = k' <;> simp [h0, Bool.or_assoc]

theorem dk_jget {k : String} {v : JValue} :
    ∀ l : JEntries, dkE l = true → jget l k = some v → dk v = true := by
  intro l
  induction l using JEntries.spineInduction with
  | hnil => intro _ h; simp [jget] at h
  | hcons k' v' rest ih =>
    intro hd h
    simp [dkE] at hd
    simp [jget] at h
    split at h
    · cases h
      exact hd.1.2
    · exact ih hd.2 h

theorem dkE_jset {k : String} {v : JValue} :
    ∀ l : JEntries, dkE l = true → dk v = true → dkE (jset l k v) = true := by
  intro l
  induction l using JEntries.spineInduction with
  | hnil => intro _ hv; simp [jset, dkE, keyMem, hv]
  | hcons k' v' rest ih =>
    intro hd hv
    simp [dkE] at hd
    by_cases h : k' = k
    · simp [jset, h, dkE, hv, hd.2]
      subst h
      exact hd.1.1
    · have hkm : keyMem k' (jset rest k v) = false := by
        rw [keyMem_jset, hd.1.1]
        simp only [Bool.false_or, decide_eq_false_iff_not]
        exact fun hk => h hk.symm
      simp [jset, h, dkE, hkm, hd.1.2, ih hd.2 hv]

mutual
theorem dk_mergeCopy : ∀ (src : Option JValue) (copy : JValue),
    dkOpt src = true → dk copy = true → dk (mergeCopy src copy) = true
  | src, .str s, _, _ => rfl
  | src, .arr sl, hs, hc => by
    show dkE (extendEntries (arrFields src) sl) = true
    apply dkE_extendEntries
    · cases src with
      | none => rfl
      | some v =>
        cases v with
        | str s => rfl
        | arr l => exact hs
        | obj l => rfl
    · exact hc
  | src, .obj sl, hs, hc => by
    show dkE (extendEntries (objFields src) sl) = true
    apply dkE_extendEntries
    · cases src with
      | none => rfl
      | some v =>
        cases v with
        | str s => rfl
        | arr l => rfl
        | obj l => exact hs
    · exact hc
termination_by src copy _ _ => sizeOf copy

theorem dkE_extendEntries : ∀ (t s : JEntries),
    dkE t = true → dkE s = true → dkE (extendEntries t s) = true
  | t, .nil, ht, _ => ht
  | t, .cons k v rest, ht, hs => by
    show dkE (extendEntries (jset t k (mergeCopy (jget t k) v)) rest) = true
    simp [dkE] at hs
    apply dkE_extendEntries _ rest _ hs.2
    apply dkE_jset _ ht
    apply dk_mergeCopy
    · cases hj : jget t k with
      | none => rfl
      | some u => exact dk_jget t ht hj
    · exact hs.1.2
termination_by t s _ _ => sizeOf s
end

theorem jget_extendEntries :
    ∀ s : JEntries, dkE s = true → ∀ (t : JEntries) (k : String),
    jget (extendEntries t s) k =
      match jget s k with
      | none => jget t k
      | some v => some (mergeCopy (jget t k) v) := by
  intro s
  induction s using JEntries.spineInduction with
  | hnil => intro _ t k; rfl
  | hcons k0 v0 rest ih =>
    intro hs t k
    simp [dkE] at hs
    show jget (extendEntries (jset t k0 (mergeCopy (jget t k0) v0)) rest) k = _
    rw [ih hs.2]
    by_cases hk : k0 = k
    · subst hk
      have hr : jget rest k0 = none :=
        jget_eq_none_of_keyMem k0 rest (by simpa using hs.1.1)
      rw [hr]
      simp [jget]
      rw [jget_jset_self]
    · have hg : jget (.cons k0 v0 rest) k = jget rest k := by simp [jget, hk]
      rw [hg]
      cases hrk : jget rest k with
      | none =>
        show jget (jset t k0 (mergeCopy (jget t k0) v0)) k = jget t k
        exact jget_jset_ne t k k0 _ hk
      | some v =>
        show some (mergeCopy (jget (jset t k0 (mergeCopy (jget t k0) v0)) k) v)
            = some (mergeCopy (jget t k) v)
        rw [jget_jset_ne t k k0 _ hk]

theorem lt_arrLen_of_jget {k : String} {v : JValue} {j : Nat} :
    ∀ l : JEntries, jget l k = some v → canonIdx k = some j → j < arrLen l := by
  intro l
  induction l using JEntries.spineInduction with
  | hnil => intro h _; simp [jget] at h
  | hcons k0 v0 rest ih =>
    intro h hc
    simp [jget] at h
    split at h
    · rename_i hk
      subst hk
      simp [arrLen, hc]
    · have := ih h hc
      simp [arrLen]
      omega

theorem arrLen_jset (l : JEntries) (k : String) (v : JValue) :
    arrLen (jset l k v) = max (arrLen l) (((canonIdx k).map (· + 1)).getD 0) := by
  induction l using JEntries.spineInduction with
  | hnil => simp [jset, arrLen]
  | hcons k0 v0 rest ih =>
    by_cases h : k0 = k
    · subst h
      simp [jset, arrLen]
    · simp [jset, h, arrLen, ih]
      omega

theorem arrLen_extendEntries :
    ∀ s t : JEntries, arrLen (extendEntries t s) ≤ max (arrLen t) (arrLen s) := by
  intro s
  induction s using JEntries.spineInduction with
  | hnil => intro t; simp [extendEntries, arrLen]
  | hcons k v rest ih =>
    intro t
    show arrLen (extendEntries (jset t k (mergeCopy (jget t k) v)) rest) ≤ _
    have h1 := ih (jset t k (mergeCopy (jget t k) v))
    rw [arrLen_jset] at h1
    simp [arrLen]
    omega

/-- One index step of jQuery's array iteration inside `buildParams`. -/
def arrStep (pfx : String) (l : JEntries) (i : Nat) : List (String × String) :=
  match jget l (toString i) with
  | some (.str s) =>
    if FormV1.strEnds pfx "[]" then [(pfx, jsCoerce (.str s))] else [(pfx ++ "[]", s)]
  | some (.arr l') =>
    if FormV1.strEnds pfx "[]" then [(pfx, jsCoerce (.arr l'))]
    else buildParams (pfx ++ "[" ++ toString i ++ "]") (.arr l')
  | some (.obj l') =>
    if FormV1.strEnds pfx "[]" then [(pfx, jsCoerce (.obj l'))]
    else buildParams (pfx ++ "[" ++ toString i ++ "]") (.obj l')
  | none => [(pfx ++ "[]", "")]

theorem buildParamsArr_succ (pfx : String) (l : JEntries) (n i : Nat) :
    buildParamsArr pfx l (n + 1) i = arrStep pfx l i ++ buildParamsArr pfx l n (i + 1) := by
  simp only [buildParamsArr]
  cases hj : jget l (toString i) with
  | none => simp [arrStep, hj]
  | some v => cases v <;> simp [arrStep, hj]

theorem mem_buildParamsArr_of_step :
    ∀ (cnt i0 j : Nat) (pfx : String) (l : JEntries) (x : String × String),
    i0 ≤ j → j < i0 + cnt → x ∈ arrStep pfx l j → x ∈ buildParamsArr pfx l cnt i0 := by
  intro cnt
  induction cnt with
  | zero => intro i0 j pfx l x h1 h2; omega
  | succ n ih =>
    intro i0 j pfx l x h1 h2 hx
    rw [buildParamsArr_succ]
    rcases Nat.eq_or_lt_of_le h1 with rfl | hlt
    · exact List.mem_append.mpr (Or.inl hx)
    · exact List.mem_append.mpr (Or.inr (ih (i0 + 1) j pfx l x hlt (by omega) hx))

theorem mem_buildParamsArr_elim :
    ∀ (cnt i0 : Nat) (pfx : String) (l : JEntries) (x : String × String),
    x ∈ buildParamsArr pfx l cnt i0 →
    ∃ j, i0 ≤ j ∧ j < i0 + cnt ∧ x ∈ arrStep pfx l j := by
  intro cnt
  induction cnt with
  | zero =>
    intro i0 pfx l x hx
    simp [buildParamsArr] at hx
  | succ n ih =>
    intro i0 pfx l x hx
    rw [buildParamsArr_succ] at hx
    rcases List.mem_append.mp hx with hx | hx
    · exact ⟨i0, Nat.le_refl _, by omega, hx⟩
    · obtain ⟨j, hj1, hj2, hj3⟩ := ih (i0 + 1) pfx l x hx
      exact ⟨j, by omega, by omega, hj3⟩



theorem buildParams_arr (pfx : String) (l : JEntries) :
    buildParams pfx (.arr l) = buildParamsArr pfx l (arrLen l) 0 := by
  simp [buildParams]

theorem dkOpt_jget {l : JEntries} {k : String} (h : dkE l = true) :
    dkOpt (jget l k) = true := by
  cases hj : jget l k with
  | none => rfl
  | some u => exact dk_jget l h hj

theorem dkE_arrFields {src : Option JValue} (h : dkOpt src = true) :
    dkE (arrFields src) = true := by
  cases src with
  | none => rfl
  | some v => cases v with
    | str s => rfl
    | arr l => exact h
    | obj l => rfl

theorem dkE_objFields {src : Option JValue} (h : dkOpt src = true) :
    dkE (objFields src) = true := by
  cases src with
  | none => rfl
  | some v => cases v with
    | str s => rfl
    | arr l => rfl
    | obj l => exact h

theorem arrFields_cases (src : Option JValue) :
    arrFields src = .nil ∨ ∃ tl, src = some (.arr tl) ∧ arrFields src = tl := by
  cases src with
  | none => exact Or.inl rfl
  | some v => cases v with
    | str s => exact Or.inl rfl
    | arr l => exact Or.inr ⟨l, rfl, rfl⟩
    | obj l => exact Or.inl rfl

/-- Same outermost constructor. -/
def sameCtor : JValue → JValue → Bool
  | .str _, .str _ => true
  | .arr _, .arr _ => true
  | .obj _, .obj _ => true
  | _, _ => false

mutual
/-- Every `$.param` pair of a deep-extended value comes from the previous
value or from the incoming copy, for values with distinct keys. -/
theorem mem_buildParamsD_mergeCopy : ∀ (pfx : String) (src : Option JValue) (copy : JValue),
    dkOpt src = true → dk copy = true →
    ∀ x ∈ buildParams pfx (mergeCopy src copy),
      (∃ u, src = some u ∧ sameCtor u copy = true ∧ x ∈ buildParams pfx u)
        ∨ x ∈ buildParams pfx copy
  | pfx, src, .str v, _, _, x, hx => Or.inr (by simpa [mergeCopy] using hx)
  | pfx, src, .obj sl, ht, hs, x, hx => by
    rw [show mergeCopy src (.obj sl) = .obj (extendEntries (objFields src) sl) from rfl] at hx
    rw [buildParams_obj, buildParamsObj_eq] at hx
    rcases mem_entriesPairsD_extendEntries _ (objFields src) sl
        (dkE_objFields ht) (by simpa [dk] using hs) x hx with h | h
    · left
      match src, h with
      | some (.obj tl), h =>
        refine ⟨.obj tl, rfl, rfl, ?_⟩
        rw [buildParams_obj, buildParamsObj_eq]
        simpa [objFields] using h
      | none, h => simp [objFields, entriesPairs] at h
      | some (.str s), h => simp [objFields, entriesPairs] at h
      | some (.arr l), h => simp [objFields, entriesPairs] at h
    · right
      rw [buildParams_obj, buildParamsObj_eq]
      exact h
  | pfx, src, .arr sl, ht, hs, x, hx => by
    rw [show mergeCopy src (.arr sl) = .arr (extendEntries (arrFields src) sl) from rfl] at hx
    rw [buildParams_arr] at hx
    have hdksl : dkE sl = true := by simpa [dk] using hs
    have hdktl : dkE (arrFields src) = true := dkE_arrFields ht
    obtain ⟨j, hj0, hjlt, hstep⟩ := mem_buildParamsArr_elim _ 0 pfx _ x hx
    have hkey := jget_extendEntries sl hdksl (arrFields src) (toString j)
    cases hjs : jget sl (toString j) with
    | some vs =>
      rw [hjs] at hkey
      have hjlt_s : j < arrLen sl := lt_arrLen_of_jget sl hjs (canonIdx_toString j)
      have hdkvs : dk vs = true := dk_jget sl hdksl hjs
      by_cases hpe : FormV1.strEnds pfx "[]"
      · right
        rw [buildParams_arr]
        apply mem_buildParamsArr_of_step (arrLen sl) 0 j pfx sl x (Nat.zero_le _) (by omega)
        cases vs with
        | str w =>
          simp only [mergeCopy] at hkey
          simp only [arrStep, hkey, if_pos hpe] at hstep
          simp only [arrStep, hjs, if_pos hpe]
          exact hstep
        | arr l2 =>
          simp only [mergeCopy] at hkey
          simp only [arrStep, hkey, if_pos hpe] at hstep
          simp only [arrStep, hjs, if_pos hpe]
          simpa [jsCoerce] using hstep
        | obj l2 =>
          simp only [mergeCopy] at hkey
          simp only [arrStep, hkey, if_pos hpe] at hstep
          simp only [arrStep, hjs, if_pos hpe]
          simpa [jsCoerce] using hstep
      · cases vs with
        | str w =>
          right
          rw [buildParams_arr]
          apply mem_buildParamsArr_of_step (arrLen sl) 0 j pfx sl x (Nat.zero_le _) (by omega)
          simp only [mergeCopy] at hkey
          simp only [arrStep, hkey, if_neg hpe] at hstep
          simp only [arrStep, hjs, if_neg hpe]
          exact hstep
        | arr l2 =>
          simp only [mergeCopy] at hkey
          simp only [arrStep, hkey, if_neg hpe] at hstep
          have hrec := mem_buildParamsD_mergeCopy (pfx ++ "[" ++ toString j ++ "]")
            (jget (arrFields src) (toString j)) (.arr l2) (dkOpt_jget hdktl) hdkvs x
            (by
              show x ∈ buildParams _ (mergeCopy (jget (arrFields src) (toString j)) (.arr l2))
              simpa [mergeCopy] using hstep)
          rcases hrec with ⟨u, hu, hsc, hxu⟩ | hxr
          · rcases arrFields_cases src with hnil | ⟨tl, hsrc, htl⟩
            · rw [hnil] at hu
              simp [jget] at hu
            · left
              refine ⟨.arr tl, hsrc, rfl, ?_⟩
              rw [buildParams_arr]
              rw [htl] at hu
              apply mem_buildParamsArr_of_step (arrLen tl) 0 j pfx tl x (Nat.zero_le _)
                (by have := lt_arrLen_of_jget tl hu (canonIdx_toString j); omega)
              match u, hsc, hxu with
              | .arr l3, _, hxu =>
                simp only [arrStep, hu, if_neg hpe]
                exact hxu
              | .str s0, hsc, _ => simp [sameCtor] at hsc
              | .obj l3, hsc, _ => simp [sameCtor] at hsc
          · right
            rw [buildParams_arr]
            apply mem_buildParamsArr_of_step (arrLen sl) 0 j pfx sl x (Nat.zero_le _) (by omega)
            simp only [arrStep, hjs, if_neg hpe]
            exact hxr
        | obj l2 =>
          simp only [mergeCopy] at hkey
          simp only [arrStep, hkey, if_neg hpe] at hstep
          have hrec := mem_buildParamsD_mergeCopy (pfx ++ "[" ++ toString j ++ "]")
            (jget (arrFields src) (toString j)) (.obj l2) (dkOpt_jget hdktl) hdkvs x
            (by
              show x ∈ buildParams _ (mergeCopy (jget (arrFields src) (toString j)) (.obj l2))
              simpa [mergeCopy] using hstep)
          rcases hrec with ⟨u, hu, hsc, hxu⟩ | hxr
          · rcases arrFields_cases src with hnil | ⟨tl, hsrc, htl⟩
            · rw [hnil] at hu
              simp [jget] at hu
            · left
              refine ⟨.arr tl, hsrc, rfl, ?_⟩
              rw [buildParams_arr]
              rw [htl] at hu
              apply mem_buildParamsArr_of_step (arrLen tl) 0 j pfx tl x (Nat.zero_le _)
                (by have := lt_arrLen_of_jget tl hu (canonIdx_toString j); omega)
              match u, hsc, hxu with
              | .obj l3, _, hxu =>
                simp only [arrStep, hu, if_neg hpe]
                exact hxu
              | .str s0, hsc, _ => simp [sameCtor] at hsc
              | .arr l3, hsc, _ => simp [sameCtor] at hsc
          · right
            rw [buildParams_arr]
            apply mem_buildParamsArr_of_step (arrLen sl) 0 j pfx sl x (Nat.zero_le _) (by omega)
            simp only [arrStep, hjs, if_neg hpe]
            exact hxr
    | none =>
      rw [hjs] at hkey
      cases htv : jget (arrFields src) (toString j) with
      | some u =>
        rw [htv] at hkey
        rcases arrFields_cases src with hnil | ⟨tl, hsrc, htl⟩
        · rw [hnil] at htv
          simp [jget] at htv
        · left
          refine ⟨.arr tl, hsrc, rfl, ?_⟩
          rw [buildParams_arr]
          rw [htl] at htv
          apply mem_buildParamsArr_of_step (arrLen tl) 0 j pfx tl x (Nat.zero_le _)
            (by have := lt_arrLen_of_jget tl htv (canonIdx_toString j); omega)
          simp only [arrStep, hkey] at hstep
          simp only [arrStep, htv]
          exact hstep
      | none =>
        rw [htv] at hkey
        have hle := arrLen_extendEntries sl (arrFields src)
        by_cases hjs' : j < arrLen sl
        · right
          rw [buildParams_arr]
          apply mem_buildParamsArr_of_step (arrLen sl) 0 j pfx sl x (Nat.zero_le _) (by omega)
          simp only [arrStep, hkey] at hstep
          simp only [arrStep, hjs]
          exact hstep
        · have hjt : j < arrLen (arrFields src) := by omega
          rcases arrFields_cases src with hnil | ⟨tl, hsrc, htl⟩
          · rw [hnil] at hjt
            simp [arrLen] at hjt
          · left
            refine ⟨.arr tl, hsrc, rfl, ?_⟩
            rw [buildParams_arr]
            rw [htl] at hjt htv
            apply mem_buildParamsArr_of_step (arrLen tl) 0 j pfx tl x (Nat.zero_le _) (by omega)
            simp only [arrStep, hkey] at hstep
            simp only [arrStep, htv]
            exact hstep
termination_by pfx src copy _ _ => sizeOf copy
decreasing_by
  · simp
  · have := jget_sizeOf_lt hjs
    simp at this ⊢
    omega
  · have := jget_sizeOf_lt hjs
    simp at this ⊢
    omega

/-- Entry-list companion of `mem_buildParamsD_mergeCopy`. -/
theorem mem_entriesPairsD_extendEntries : ∀ (g : String → String) (t s : JEntries),
    dkE t = true → dkE s = true →
    ∀ x ∈ entriesPairs g (extendEntries t s), x ∈ entriesPairs g t ∨ x ∈ entriesPairs g s
  | g, t, .nil, _, _, x, hx => Or.inl (by simpa [extendEntries] using hx)
  | g, t, .cons k v rest, ht, hs, x, hx => by
    simp only [dkE, Bool.and_eq_true] at hs
    simp only [extendEntries] at hx
    have hm : dk (mergeCopy (jget t k) v) = true :=
      dk_mergeCopy (jget t k) v (dkOpt_jget ht) hs.1.2
    rcases mem_entriesPairsD_extendEntries g _ rest (dkE_jset t ht hm) hs.2 x hx with h | h
    · rcases mem_entriesPairs_jset g t k _ x h with h' | h'
      · exact Or.inl h'
      · rcases mem_buildParamsD_mergeCopy (g k) (jget t k) v (dkOpt_jget ht) hs.1.2 x h'
          with ⟨u, hu, _, hxu⟩ | h''
        · exact Or.inl (buildParams_jget_sub g t k u hu x hxu)
        · exact Or.inr (by simp only [entriesPairs, List.mem_append]; exact Or.inl h'')
    · exact Or.inr (by simp only [entriesPairs, List.mem_append]; exact Or.inr h)
termination_by g t s _ _ => sizeOf s
end



theorem isDigitChar_word {c : Char} (h : isDigitChar c = true) : isWordChar c = true := by
  simp [isWordChar, h]

/-- An explicit bracket segment: an object key or an array index. -/
def wfSeg (s : String) : Bool := namedSeg s || FormV1.isDigits s

/-- A well-formed explicit array/object bracket field name. -/
def wfPathM (p : NamePath) : Bool := identStr p.base && p.segs.all wfSeg

/-- The single-path nested value: arrays at digit segments, objects at
named segments. -/
def nestMixed : List String → JValue → JValue
  | [], v => v
  | s :: rest, v =>
    if FormV1.isDigits s then .arr (.cons s (nestMixed rest v) .nil)
    else .obj (.cons s (nestMixed rest v) .nil)

theorem wfSeg_spec {s : String} (h : wfSeg s = true) :
    s.data ≠ [] ∧ ∀ c ∈ s.data, isWordChar c = true := by
  have h' : namedSeg s = true ∨ FormV1.isDigits s = true := by
    simpa [wfSeg] using h
  rcases h' with h | h
  · exact namedSeg_spec h
  · unfold FormV1.isDigits at h
    simp only [Bool.and_eq_true, Bool.not_eq_true', List.all_eq_true] at h
    constructor
    · intro hnil
      have h1 := h.1
      rw [show s.toList = s.data from rfl, hnil] at h1
      simp at h1
    · exact fun c hc => isDigitChar_word (h.2 c hc)

theorem buildNested_mixed (segs : List String) (v : JValue)
    (hs : ∀ s ∈ segs, wfSeg s = true) :
    Form.buildNested segs.reverse v = nestMixed segs v := by
  induction segs generalizing v with
  | nil => rfl
  | cons s rest ih =>
    rw [List.reverse_cons, buildNested_append]
    rw [ih _ (fun x hx => hs x (List.mem_cons_of_mem _ hx))]
    have hspec := wfSeg_spec (hs s (List.mem_cons_self _ _))
    by_cases hd : FormV1.isDigits s
    · show Form.buildNested [s] _ = _
      simp only [Form.buildNested, nestMixed]
      rw [if_pos hd, if_pos hd]
    · show Form.buildNested [s] _ = _
      simp only [Form.buildNested, nestMixed]
      rw [if_neg hd, if_neg hd, if_pos (by simpa using hspec.1)]

theorem buildNested_renderM (p : NamePath) (v : JValue) (hwf : wfPathM p = true) :
    Form.buildNested (p.base :: p.segs).reverse v
      = .obj (.cons p.base (nestMixed p.segs v) .nil) := by
  unfold wfPathM at hwf
  simp only [Bool.and_eq_true, List.all_eq_true] at hwf
  rw [List.reverse_cons, buildNested_append, buildNested_mixed _ _ hwf.2]
  have hbne : p.base.data ≠ [] := (identStr_spec hwf.1).1
  simp only [Form.buildNested]
  rw [if_neg (by simp [identStr_not_digits hwf.1]), if_pos (by simpa using hbne)]

theorem libTokens_renderM (p : NamePath) (hwf : wfPathM p = true) :
    Form.libTokens (render p) = p.base :: p.segs := by
  unfold wfPathM at hwf
  simp only [Bool.and_eq_true, List.all_eq_true] at hwf
  obtain ⟨hbne, hbw⟩ := identStr_spec hwf.1
  unfold Form.libTokens render
  have hdata : (p.base ++ segsStr p.segs).toList = p.base.data ++ (segsStr p.segs).data := by
    simp [String.toList, String.data_append]
  rw [hdata]
  rw [libTokensAux_word p.base.data _ [] hbw]
  rw [libTokensAux_segs _ _ (fun s hs => wfSeg_spec (hwf.2 s hs))]
  rw [if_neg (by simpa using hbne)]
  simp

theorem endsWithPush_eq_true_iff2 (s : String) :
    endsWithPush s = true ↔ ∃ t, s.toList.reverse = ']' :: '[' :: t := by
  unfold endsWithPush
  split
  · rename_i heq
    exact ⟨fun _ => ⟨_, heq⟩, fun _ => rfl⟩
  · rename_i hne
    constructor
    · intro h
      exact absurd h (by simp)
    · rintro ⟨t, ht⟩
      exact absurd ht (hne t)

theorem endsWithPush_append_seg (a k : String) (hne : k.data ≠ [])
    (hw : ∀ c ∈ k.data, isWordChar c = true) :
    endsWithPush (a ++ "[" ++ k ++ "]") = false := by
  cases hpe : endsWithPush (a ++ "[" ++ k ++ "]") with
  | false => rfl
  | true =>
    exfalso
    obtain ⟨t, ht⟩ := (endsWithPush_eq_true_iff2 _).mp hpe
    obtain ⟨c0, w, hk⟩ : ∃ c0 w, k.data.reverse = c0 :: w := by
      cases hl : k.data.reverse with
      | nil => exact absurd (List.reverse_eq_nil_iff.mp hl) hne
      | cons x xs => exact ⟨x, xs, rfl⟩
    have hdata : (a ++ "[" ++ k ++ "]").toList.reverse
        = ']' :: (c0 :: (w ++ '[' :: a.data.reverse)) := by
      show (a ++ "[" ++ k ++ "]").data.reverse = _
      rw [show (a ++ "[" ++ k ++ "]").data = (a.data ++ '[' :: k.data) ++ [']'] from by
        simp [String.data_append]]
      simp only [List.reverse_append, List.reverse_cons, List.reverse_nil, List.nil_append]
      rw [hk]
      simp
    rw [hdata] at ht
    simp only [List.cons.injEq] at ht
    have hc0 : c0 = '[' := ht.2.1
    have hc0mem : c0 ∈ k.data := by
      rw [← List.mem_reverse, hk]
      exact List.mem_cons_self _ _
    rw [hc0] at hc0mem
    exact absurd (hw _ hc0mem) (by decide)

theorem endsWithPush_ident {s : String} (h : identStr s = true) :
    endsWithPush s = false := by
  obtain ⟨hne, hw⟩ := identStr_spec h
  cases hpe : endsWithPush s with
  | false => rfl
  | true =>
    exfalso
    obtain ⟨t, ht⟩ := (endsWithPush_eq_true_iff2 _).mp hpe
    have hmem : ']' ∈ s.data := by
      rw [← List.mem_reverse]
      rw [show s.data.reverse = ']' :: '[' :: t from ht]
      exact List.mem_cons_self _ _
    exact absurd (hw _ hmem) (by decide)

theorem endsWithPush_append_push (a : String) : endsWithPush (a ++ "[]") = true := by
  apply (endsWithPush_eq_true_iff2 _).mpr
  refine ⟨a.data.reverse, ?_⟩
  show (a ++ "[]").data.reverse = _
  rw [show (a ++ "[]").data = a.data ++ ['[', ']'] from by simp [String.data_append]]
  rw [List.reverse_append]
  rfl

theorem segsStr_append2 : ∀ (a b : List String), segsStr (a ++ b) = segsStr a ++ segsStr b
  | [], b => by
    apply String.ext
    simp [segsStr, String.data_append]
  | s :: rest, b => by
    simp [segsStr, segsStr_append2 rest b, String.append_assoc]

theorem endsWithPush_renderM (p : NamePath) (hwf : wfPathM p = true) :
    endsWithPush (render p) = false := by
  have hwf' := hwf
  unfold wfPathM at hwf'
  simp only [Bool.and_eq_true, List.all_eq_true] at hwf'
  rcases List.eq_nil_or_concat p.segs with hnil | ⟨init, last, hcat⟩
  · rw [show render p = p.base from by
      apply String.ext
      simp [render, hnil, segsStr]]
    exact endsWithPush_ident hwf'.1
  · rw [List.concat_eq_append] at hcat
    have hlast : last ∈ p.segs := by
      rw [hcat]
      exact List.mem_append.mpr (Or.inr (List.mem_cons_self _ _))
    obtain ⟨hlne, hlw⟩ := wfSeg_spec (hwf'.2 last hlast)
    have hsplit : render p = (p.base ++ segsStr init) ++ "[" ++ last ++ "]" := by
      apply String.ext
      unfold render
      rw [hcat, segsStr_append2]
      simp [String.data_append, segsStr]
    rw [hsplit]
    exact endsWithPush_append_seg _ _ hlne hlw

theorem asciiStr_append {a b : String} (ha : asciiStr a) (hb : asciiStr b) :
    asciiStr (a ++ b) := by
  intro c hc
  rw [show (a ++ b).data = a.data ++ b.data from String.data_append a b] at hc
  rcases List.mem_append.mp hc with hc | hc
  · exact ha c hc
  · exact hb c hc

theorem asciiStr_empty : asciiStr "" := by
  intro c hc
  simp at hc

theorem asciiStr_of_word {s : String} (h : ∀ c ∈ s.data, isWordChar c = true) :
    asciiStr s := fun c hc => isWordChar_ascii (h c hc)

theorem asciiStr_lb : asciiStr "[" := by
  intro c hc
  have hc' : c = '[' := by simpa using hc
  subst hc'
  decide

theorem asciiStr_rb : asciiStr "]" := by
  intro c hc
  have hc' : c = ']' := by simpa using hc
  subst hc'
  decide

theorem asciiStr_push : asciiStr "[]" := by
  intro c hc
  have hc' : c = '[' ∨ c = ']' := by simpa using hc
  rcases hc' with rfl | rfl <;> decide

theorem strEnds_push (s : String) : FormV1.strEnds s "[]" = endsWithPush s := by
  cases hp : endsWithPush s with
  | true =>
    obtain ⟨t, ht⟩ := (endsWithPush_eq_true_iff2 _).mp hp
    unfold FormV1.strEnds
    rw [show ("[]" : String).toList.reverse = [']', '['] from rfl, ht]
    simp [List.isPrefixOf]
  | false =>
    cases hs : FormV1.strEnds s "[]" with
    | false => rfl
    | true =>
      exfalso
      unfold FormV1.strEnds at hs
      rw [show ("[]" : String).toList.reverse = [']', '['] from rfl] at hs
      cases hr : s.toList.reverse with
      | nil => rw [hr] at hs; simp [List.isPrefixOf] at hs
      | cons c restr =>
        cases restr with
        | nil => rw [hr] at hs; simp [List.isPrefixOf] at hs
        | cons c2 rest2 =>
          rw [hr] at hs
          simp [List.isPrefixOf] at hs
          obtain ⟨h1, h2⟩ := hs
          have hp2 : endsWithPush s = true := by
            apply (endsWithPush_eq_true_iff2 _).mpr
            exact ⟨rest2, by rw [hr, ← h1, ← h2]⟩
          rw [hp] at hp2
          exact absurd hp2 (by simp)

theorem toString_nat_inj {i j : Nat} (h : toString i = toString j) : i = j := by
  have h1 := canonIdx_toString i
  rw [h, canonIdx_toString j] at h1
  exact (Option.some.inj h1).symm

theorem arrStep_some_str (pfx : String) (l : JEntries) (i : Nat) (w : String)
    (h : jget l (toString i) = some (.str w)) (hpe : FormV1.strEnds pfx "[]" = false) :
    arrStep pfx l i = [(pfx ++ "[]", w)] := by
  simp [arrStep, h, hpe]

theorem arrStep_some_arr (pfx : String) (l : JEntries) (i : Nat) (l2 : JEntries)
    (h : jget l (toString i) = some (.arr l2)) (hpe : FormV1.strEnds pfx "[]" = false) :
    arrStep pfx l i = buildParams (pfx ++ "[" ++ toString i ++ "]") (.arr l2) := by
  simp [arrStep, h, hpe]

theorem arrStep_some_obj (pfx : String) (l : JEntries) (i : Nat) (l2 : JEntries)
    (h : jget l (toString i) = some (.obj l2)) (hpe : FormV1.strEnds pfx "[]" = false) :
    arrStep pfx l i = buildParams (pfx ++ "[" ++ toString i ++ "]") (.obj l2) := by
  simp [arrStep, h, hpe]

theorem arrStep_none (pfx : String) (l : JEntries) (i : Nat)
    (h : jget l (toString i) = none) :
    arrStep pfx l i = [(pfx ++ "[]", "")] := by
  simp [arrStep, h]

/-- Classification of the `$.param` pairs of a single-path mixed fragment:
every pair is ASCII and is either keyed by a push key (holes, and leaves
under a trailing digit segment, whose value is still `v`) or is the exact
leaf pair. -/
theorem buildParams_nestMixed : ∀ (segs : List String) (pfx v : String),
    (∀ s ∈ segs, wfSeg s = true) →
    endsWithPush pfx = false →
    asciiStr pfx → asciiStr v →
    ∀ x ∈ buildParams pfx (nestMixed segs (.str v)),
      asciiStr x.1 ∧ asciiStr x.2 ∧
      (endsWithPush x.1 = true ∨ x = (pfx ++ segsStr segs, v))
  | [], pfx, v, _, _, hap, hav, x, hx => by
    rw [show nestMixed [] (.str v) = .str v from rfl, buildParams_str] at hx
    simp only [List.mem_singleton] at hx
    subst hx
    refine ⟨hap, hav, Or.inr ?_⟩
    show (pfx, v) = (pfx ++ segsStr [], v)
    rw [show segsStr [] = "" from rfl]
    rw [show pfx ++ "" = pfx from by simp]
  | s :: rest, pfx, v, hseg, hpe, hap, hav, x, hx => by
    have hsp := wfSeg_spec (hseg s (List.mem_cons_self _ _))
    have hpfx' : endsWithPush (pfx ++ "[" ++ s ++ "]") = false := by
      rw [show pfx ++ "[" ++ s ++ "]" = pfx ++ "[" ++ s ++ "]" from rfl]
      exact endsWithPush_append_seg pfx s hsp.1 hsp.2
    have hap' : asciiStr (pfx ++ "[" ++ s ++ "]") :=
      asciiStr_append (asciiStr_append (asciiStr_append hap asciiStr_lb)
        (asciiStr_of_word hsp.2)) asciiStr_rb
    have happush : asciiStr (pfx ++ "[]") := asciiStr_append hap asciiStr_push
    have hsegsuffix : (pfx ++ "[" ++ s ++ "]") ++ segsStr rest = pfx ++ segsStr (s :: rest) := by
      apply String.ext
      simp [String.data_append, segsStr]
    by_cases hd : FormV1.isDigits s
    · rw [show nestMixed (s :: rest) (.str v)
          = .arr (.cons s (nestMixed rest (.str v)) .nil) from by
        simp [nestMixed, hd]] at hx
      rw [buildParams_arr] at hx
      obtain ⟨j, hj0, hjlt, hstep⟩ := mem_buildParamsArr_elim _ 0 pfx _ x hx
      have hstrEq : FormV1.strEnds pfx "[]" = false := by rw [strEnds_push, hpe]
      cases hci : canonIdx s with
      | none =>
        rw [show arrLen (.cons s (nestMixed rest (.str v)) .nil) = 0 from by
          simp [arrLen, hci]] at hjlt
        omega
      | some m =>
        rw [show arrLen (.cons s (nestMixed rest (.str v)) .nil) = m + 1 from by
          simp [arrLen, hci]] at hjlt
        by_cases hjm : j = m
        · subst hjm
          have hkey : toString j = s := canonIdx_print hci
          have hjget : jget (.cons s (nestMixed rest (.str v)) .nil) (toString j)
              = some (nestMixed rest (.str v)) := by
            simp [jget, hkey]
          cases rest with
          | nil =>
            rw [show nestMixed [] (.str v) = .str v from rfl] at hjget hstep
            rw [arrStep_some_str pfx _ j v hjget hstrEq] at hstep
            simp only [List.mem_singleton] at hstep
            subst hstep
            exact ⟨happush, hav, Or.inl (endsWithPush_append_push pfx)⟩
          | cons s2 rest2 =>
            have hstep' : x ∈ buildParams (pfx ++ "[" ++ s ++ "]")
                (nestMixed (s2 :: rest2) (.str v)) := by
              by_cases hd2 : FormV1.isDigits s2
              · rw [show nestMixed (s2 :: rest2) (.str v)
                    = .arr (.cons s2 (nestMixed rest2 (.str v)) .nil) from by
                  simp [nestMixed, hd2]] at hjget hstep ⊢
                rw [arrStep_some_arr pfx _ j _ hjget hstrEq, hkey] at hstep
                exact hstep
              · rw [show nestMixed (s2 :: rest2) (.str v)
                    = .obj (.cons s2 (nestMixed rest2 (.str v)) .nil) from by
                  simp [nestMixed, hd2]] at hjget hstep ⊢
                rw [arrStep_some_obj pfx _ j _ hjget hstrEq, hkey] at hstep
                exact hstep
            obtain ⟨h1, h2, h3⟩ := buildParams_nestMixed (s2 :: rest2) _ v
              (fun z hz => hseg z (List.mem_cons_of_mem _ hz)) hpfx' hap' hav x hstep'
            refine ⟨h1, h2, ?_⟩
            rcases h3 with h3 | h3
            · exact Or.inl h3
            · right
              rw [h3, hsegsuffix]
        · have hne : s ≠ toString j := by
            intro h
            rw [h, canonIdx_toString] at hci
            exact hjm (Option.some.inj hci)
          have hjget : jget (.cons s (nestMixed rest (.str v)) .nil) (toString j) = none := by
            simp [jget, hne]
          rw [arrStep_none pfx _ j hjget] at hstep
          simp only [List.mem_singleton] at hstep
          subst hstep
          exact ⟨happush, asciiStr_empty, Or.inl (endsWithPush_append_push pfx)⟩
    · have hx' : x ∈ buildParams (pfx ++ "[" ++ s ++ "]") (nestMixed rest (.str v)) := by
        rw [show nestMixed (s :: rest) (.str v)
            = .obj (.cons s (nestMixed rest (.str v)) .nil) from by simp [nestMixed, hd],
          buildParams_obj] at hx
        simpa [buildParamsObj] using hx
      obtain ⟨h1, h2, h3⟩ := buildParams_nestMixed rest _ v
        (fun z hz => hseg z (List.mem_cons_of_mem _ hz)) hpfx' hap' hav x hx'
      refine ⟨h1, h2, ?_⟩
      rcases h3 with h3 | h3
      · exact Or.inl h3
      · right
        rw [h3, hsegsuffix]



theorem dk_nestMixed : ∀ (segs : List String) (v : String),
    dk (nestMixed segs (.str v)) = true
  | [], v => rfl
  | s :: rest, v => by
    by_cases hd : FormV1.isDigits s
    · simp [nestMixed, hd, dk, dkE, keyMem, dk_nestMixed rest v]
    · simp [nestMixed, hd, dk, dkE, keyMem, dk_nestMixed rest v]

/-- Pairs of `$.extend(true, tree, frag)` come from the tree or the
fragment (distinct-keys case, arrays included). -/
theorem mem_paramPairsD_jextend (tree frag : JValue) (hna : dk tree = true)
    (hnf : dk frag = true) (hobj : ∃ l, frag = .obj l) (x : String × String)
    (hx : x ∈ paramPairs (jextend tree frag)) :
    x ∈ paramPairs tree ∨ x ∈ paramPairs frag := by
  obtain ⟨fl, rfl⟩ := hobj
  rw [show jextend tree (.obj fl) = .obj (extendEntries (objFields (some tree)) fl) from rfl]
    at hx
  simp only [paramPairs] at hx
  rw [paramPairsTop_eq] at hx
  rcases mem_entriesPairsD_extendEntries _ (objFields (some tree)) fl
      (dkE_objFields (by simpa [dkOpt] using hna))
      (by simpa [dk] using hnf) x hx with h | h
  · left
    match tree, h with
    | .obj tl, h =>
      simp only [paramPairs]
      rw [paramPairsTop_eq]
      simpa [objFields] using h
    | .str s, h => simp [objFields, entriesPairs] at h
    | .arr l, h => simp [objFields, entriesPairs] at h
  · right
    simp only [paramPairs]
    rw [paramPairsTop_eq]
    exact h

/-- Every `$.param` pair of the lib `getData` fold over well-formed mixed
fragments satisfies any predicate covering the initial tree and each
fragment's pairs. -/
theorem getData_fold_pairsM (Q : String × String → Prop) :
    ∀ (flat : List (String × FieldValue)) (tree : JValue),
    dk tree = true →
    (∀ x ∈ paramPairs tree, Q x) →
    (∀ kv ∈ flat, ∃ (p : NamePath) (v : String),
        kv = (render p, .s v) ∧ wfPathM p = true ∧
        (∀ x ∈ paramPairs (.obj (.cons p.base (nestMixed p.segs (.str v)) .nil)), Q x)) →
    ∀ x ∈ paramPairs (flat.foldl
        (fun data kv =>
          jextend data (Form.buildNested (Form.libTokens kv.1).reverse (Form.fvToJValue kv.2)))
        tree), Q x := by
  intro flat
  induction flat with
  | nil =>
    intro tree _ hq _ x hx
    exact hq x hx
  | cons kv rest ih =>
    intro tree hna hq hflat x hx
    simp only [List.foldl_cons] at hx
    obtain ⟨p, v, hkv, hwf, hQ⟩ := hflat kv (List.mem_cons_self _ _)
    subst hkv
    rw [show Form.fvToJValue (.s v) = .str v from rfl] at hx
    rw [libTokens_renderM p hwf, buildNested_renderM p _ hwf] at hx
    have hfrag : dk (.obj (.cons p.base (nestMixed p.segs (.str v)) .nil)) = true := by
      simp [dk, dkE, keyMem, dk_nestMixed]
    refine ih _ ?_ ?_ (fun z hz => hflat z (List.mem_cons_of_mem _ hz)) x hx
    · exact dk_mergeCopy _ _ (by simpa [dkOpt] using hna) hfrag
    · intro y hy
      rcases mem_paramPairsD_jextend tree _ hna hfrag ⟨_, rfl⟩ y hy with h | h
      · exact hq y h
      · exact hQ y h

theorem getA_mem {α : Type} (l : List (String × α)) (k : String) (v : α)
    (h : getA l k = some v) : (k, v) ∈ l := by
  induction l with
  | nil => simp [getA] at h
  | cons a rest ih =>
    obtain ⟨ak, av⟩ := a
    simp only [getA] at h
    split at h
    · rename_i hk
      cases h
      subst hk
      exact List.mem_cons_self _ _
    · exact List.mem_cons_of_mem _ (ih h)

theorem mem_setA {α : Type} (l : List (String × α)) (k : String) (v : α)
    (x : String × α) (hx : x ∈ setA l k v) : x ∈ l ∨ x = (k, v) := by
  induction l with
  | nil => simpa [setA] using hx
  | cons a rest ih =>
    obtain ⟨ak, av⟩ := a
    simp only [setA] at hx
    split at hx
    · rename_i hk
      rcases List.mem_cons.mp hx with rfl | hx
      · exact Or.inr (by rw [hk])
      · exact Or.inl (List.mem_cons_of_mem _ hx)
    · rcases List.mem_cons.mp hx with rfl | hx
      · exact Or.inl (List.mem_cons_self _ _)
      · rcases ih hx with h | h
        · exact Or.inl (List.mem_cons_of_mem _ h)
        · exact Or.inr h

theorem param_pair_decode (k w : String) (hk : asciiStr k) (hw : asciiStr w) :
    Form.paramName (encodeURIComponent k ++ "=" ++ encodeURIComponent w) = k ∧
    Form.paramValue (encodeURIComponent k ++ "=" ++ encodeURIComponent w) = w := by
  have hsplit : splitChar '=' (encodeURIComponent k ++ "=" ++ encodeURIComponent w).toList
      = [(encodeURIComponent k).data, (encodeURIComponent w).data] := by
    rw [show (encodeURIComponent k ++ "=" ++ encodeURIComponent w).toList
        = (encodeURIComponent k).data ++ '=' :: (encodeURIComponent w).data from by
      show (encodeURIComponent k ++ "=" ++ encodeURIComponent w).data = _
      simp [String.data_append]]
    exact splitChar_pair _ _
      (fun hm => (encodeURIComponent_ne_sep k '=' hm).2 rfl)
      (fun hm => (encodeURIComponent_ne_sep w '=' hm).2 rfl)
  constructor
  · unfold Form.paramName
    rw [hsplit]
    show decodeURIComponent (String.mk (encodeURIComponent k).data) = k
    exact decode_encode k hk
  · unfold Form.paramValue
    rw [hsplit]
    show decodeURIComponent (String.mk (encodeURIComponent w).data) = w
    exact decode_encode w hw

theorem mem_segsStr_data : ∀ (segs : List String) (c : Char), c ∈ (segsStr segs).data →
    c = '[' ∨ c = ']' ∨ ∃ s ∈ segs, c ∈ s.data
  | [], c, hc => by simp [segsStr] at hc
  | s :: rest, c, hc => by
    rw [show (segsStr (s :: rest)).data = '[' :: (s.data ++ ']' :: (segsStr rest).data) from by
      show ("[" ++ s ++ "]" ++ segsStr rest).data = _
      simp [String.data_append]] at hc
    rcases List.mem_cons.mp hc with rfl | hc
    · exact Or.inl rfl
    · rcases List.mem_append.mp hc with hc | hc
      · exact Or.inr (Or.inr ⟨s, List.mem_cons_self _ _, hc⟩)
      · rcases List.mem_cons.mp hc with rfl | hc
        · exact Or.inr (Or.inl rfl)
        · rcases mem_segsStr_data rest c hc with h | h | ⟨x, hx, hcx⟩
          · exact Or.inl h
          · exact Or.inr (Or.inl h)
          · exact Or.inr (Or.inr ⟨x, List.mem_cons_of_mem _ hx, hcx⟩)

theorem ascii_renderM (p : NamePath) (hwf : wfPathM p = true) : asciiStr (render p) := by
  have hwf' := hwf
  unfold wfPathM at hwf'
  simp only [Bool.and_eq_true, List.all_eq_true] at hwf'
  obtain ⟨_, hbw⟩ := identStr_spec hwf'.1
  intro c hc
  rw [show (render p).data = p.base.data ++ (segsStr p.segs).data from by
    simp [render, String.data_append]] at hc
  rcases List.mem_append.mp hc with hc | hc
  · exact isWordChar_ascii (hbw c hc)
  · rcases mem_segsStr_data _ _ hc with rfl | rfl | ⟨s, hs, hcs⟩
    · decide
    · decide
    · exact isWordChar_ascii ((wfSeg_spec (hwf'.2 s hs)).2 c hcs)

theorem render_ne_emptyM (p : NamePath) (hwf : wfPathM p = true) : render p ≠ "" := by
  intro h
  have hd : (render p).data = [] := by rw [h]
  rw [show (render p).data = p.base.data ++ (segsStr p.segs).data from by
    simp [render, String.data_append]] at hd
  have hb := (List.append_eq_nil.mp hd).1
  unfold wfPathM at hwf
  simp only [Bool.and_eq_true] at hwf
  exact (identStr_spec hwf.1).1 hb

theorem nodup_render_unique (fields : List (NamePath × String))
    (hnd : (fields.map (fun pv => render pv.1)).Nodup) :
    ∀ x ∈ fields, ∀ y ∈ fields, render x.1 = render y.1 → x = y := by
  induction fields with
  | nil => simp
  | cons a rest ih =>
    simp only [List.map_cons, List.nodup_cons] at hnd
    intro x hx y hy hr
    rcases List.mem_cons.mp hx with hxa | hx2
    · rcases List.mem_cons.mp hy with hya | hy2
      · rw [hxa, hya]
      · subst hxa
        refine absurd ?_ hnd.1
        rw [hr]
        exact List.mem_map_of_mem (fun pv => render pv.1) hy2
    · rcases List.mem_cons.mp hy with hya | hy2
      · subst hya
        refine absurd ?_ hnd.1
        rw [← hr]
        exact List.mem_map_of_mem (fun pv => render pv.1) hx2
      · exact ih hnd.2 x hx2 y hy2 hr

theorem setElementValue1_text_self (rebuilt : List (String × FieldValue)) (n v : String)
    (hlookup : ∀ fv, getA rebuilt n = some fv → fv = .s v) :
    Form.setElementValue1 rebuilt (mkTextInput n v) = mkTextInput n v := by
  unfold Form.setElementValue1
  cases h : getA rebuilt (mkTextInput n v).name with
  | none => rfl
  | some fv =>
    rw [hlookup fv h]
    rfl

theorem map_eq_self {α : Type} (l : List α) (f : α → α) (h : ∀ x ∈ l, f x = x) :
    l.map f = l := by
  induction l with
  | nil => rfl
  | cons a rest ih =>
    simp only [List.map_cons]
    rw [h a (List.mem_cons_self _ _), ih (fun x hx => h x (List.mem_cons_of_mem _ hx))]

/-- The rebuilt flat map of `Form.setData` satisfies any per-entry
predicate that holds for push-keyed entries and for each scalar
parameter. -/
theorem rebuild_predM (P : String → FieldValue → Prop) (params : List String)
    (hpush : ∀ n vs, endsWithPush n = true → P n (.l vs))
    (hq : ∀ q ∈ params, endsWithPush (Form.paramName q) = true ∨
          P (Form.paramName q) (.s (Form.paramValue q))) :
    ∀ data : List (String × FieldValue), (∀ kv ∈ data, P kv.1 kv.2) →
    ∀ kv ∈ params.foldl Form.rebuildStep data, P kv.1 kv.2 := by
  induction params with
  | nil =>
    intro data hdata kv hkv
    exact hdata kv hkv
  | cons q rest ih =>
    intro data hdata kv hkv
    simp only [List.foldl_cons] at hkv
    refine ih (fun z hz => hq z (List.mem_cons_of_mem _ hz)) _ ?_ kv hkv
    intro z hz
    unfold Form.rebuildStep at hz
    by_cases hp : endsWithPush (Form.paramName q)
    · rw [if_pos hp] at hz
      rcases mem_setA _ _ _ _ hz with h | h
      · exact hdata z h
      · rw [h]
        exact hpush _ _ hp
    · rw [if_neg hp] at hz
      rcases mem_setA _ _ _ _ hz with h | h
      · exact hdata z h
      · rw [h]
        rcases hq q (List.mem_cons_self _ _) with h' | h'
        · exact absurd h' hp
        · exact h'

/-! ## Claims -/

/-- C1: serializing the two entries `a[b][] = "1"`, `a[b][] = "2"` yields
`{a: {b: ["1", "2"]}}`; and in general a push (empty bracket) segment takes
the next index from the counter keyed by the entry's reverse key — the name
with the trailing bracket segment removed — so push indices are counted per
distinct remaining prefix, not globally. -/
theorem claim_C1_push_counters_per_reverse_key :
    FormV1.getData [⟨"a[b][]", "1"⟩, ⟨"a[b][]", "2"⟩] false
      = .obj (.cons "a" (.obj (.cons "b"
          (.arr (.cons "0" (.str "1") (.cons "1" (.str "2") .nil))) .nil)) .nil)
    ∧ ∀ (rest : List String) (merge : JValue) (rk : String) (cnt : FormV1.Counters),
        FormV1.buildFragment ("" :: rest) merge rk cnt
          = FormV1.buildFragment rest
              (.arr (.cons (toString ((getA cnt (FormV1.stripBracketSuffix rk "")).getD 0))
                merge .nil))
              (FormV1.stripBracketSuffix rk "")
              (setA cnt (FormV1.stripBracketSuffix rk "")
                ((getA cnt (FormV1.stripBracketSuffix rk "")).getD 0 + 1)) :=
  ⟨rfl, fun _ _ _ _ => rfl⟩

/-- C2: an entry whose name fails the bracket grammar
`identifier('['(digits|identifier)?']')*` (the `patterns.validate` regex) is
silently skipped by `getData`: the result is the same as if the entry were
absent, so no key derived from it appears and no error is raised (the
embedding is a total function). -/
theorem claim_C2_invalid_name_skipped (pre post : List Entry) (e : Entry) (skip : Bool)
    (h : FormV1.validate e.name = false) :
    FormV1.getData (pre ++ e :: post) skip = FormV1.getData (pre ++ post) skip := by
  have he : ∀ dc : JValue × FormV1.Counters, FormV1.getDataStep skip dc e = dc := by
    intro dc
    simp [FormV1.getDataStep, h]
  simp [FormV1.getData, FormV1.getDataRun, List.foldl_append, he]

/-- Witness for C2 at the concrete malformed name `"[x]"`. -/
theorem claim_C2_witness :
    FormV1.validate "[x]" = false
    ∧ FormV1.getData ([] ++ ⟨"[x]", "v"⟩ :: []) false = FormV1.getData ([] ++ []) false :=
  ⟨rfl, claim_C2_invalid_name_skipped [] [] ⟨"[x]", "v"⟩ false rfl⟩

/-- A multi-select element named `status` with options `a`, `b`, `c` in an
arbitrary prior selection state. -/
def selElem (s1 s2 s3 : Bool) : Element :=
  ⟨"status", "SELECT", "select-multiple", "", false, false,
    [⟨"a", s1⟩, ⟨"b", s2⟩, ⟨"c", s3⟩]⟩

/-- C3: setting `{status: ["a", "b"]}` on a multi-select with options
`a`, `b`, `c`.  The lib revision (`Form._setElementValues`,
`option.selected = true`) selects exactly `a` and `b` as the claim states,
for every prior selection state.  The part_000 revision (`Form._doSetData`)
assigns `option.selected = i`, and index 0 coerces to `false`: option `a`
is left unselected, contradicting the claim on that revision. -/
theorem claim_C3_select_assignment_divergence :
    (∀ s1 s2 s3 : Bool,
      Form.setElementValue1 [("status", .l ["a", "b"])] (selElem s1 s2 s3)
        = { selElem s1 s2 s3 with options := [⟨"a", true⟩, ⟨"b", true⟩, ⟨"c", false⟩] })
    ∧ (∀ s1 s2 s3 : Bool,
      FormV1.doSetDataOne [("status", .l ["a", "b"])] (selElem s1 s2 s3)
        = { selElem s1 s2 s3 with options := [⟨"a", false⟩, ⟨"b", true⟩, ⟨"c", false⟩] }) :=
  ⟨fun _ _ _ => rfl, fun _ _ _ => rfl⟩

/-- C4: parsing `a[0] = "x"` and `a[2] = "y"` keeps both indices (`{a:
{"0": "x", "2": "y"}}`); and in general jQuery's deep `$.extend` is
non-destructive and sparse: a key absent from the incoming fragment keeps
the value it had in the accumulated container, for objects and arrays alike
(both merge through `extendEntries`). -/
theorem claim_C4_sparse_nondestructive_merge :
    FormV1.getData [⟨"a[0]", "x"⟩, ⟨"a[2]", "y"⟩] false
      = .obj (.cons "a" (.arr (.cons "0" (.str "x") (.cons "2" (.str "y") .nil))) .nil)
    ∧ ∀ (t s : JEntries) (k : String), jget s k = none →
        jget (extendEntries t s) k = jget t k := by
  refine ⟨rfl, ?_⟩
  intro t s k
  induction s using JEntries.spineInduction generalizing t with
  | hnil => intro _; simp [extendEntries]
  | hcons a b rest ih =>
    intro h
    simp only [jget] at h
    split at h
    · exact absurd h (by simp)
    · simp only [extendEntries]
      rw [ih _ h, jget_jset_ne]
      intro he
      subst he
      simp_all

/-- Witness for C4: merging an index-2 fragment over an array holding index
0 preserves index 0. -/
theorem claim_C4_witness :
    jget (.cons "2" (.str "y") .nil) "0" = none
    ∧ jget (extendEntries (.cons "0" (.str "x") .nil) (.cons "2" (.str "y") .nil)) "0"
        = jget (.cons "0" (.str "x") .nil) "0" :=
  ⟨rfl, claim_C4_sparse_nondestructive_merge.2
    (.cons "0" (.str "x") .nil) (.cons "2" (.str "y") .nil) "0" rfl⟩

/-- C6: the value flattener leaves untouched every element whose name has
no entry in the supplied data, and performs no assignment on elements of
type submit/reset/button even when the data has an entry for their name —
in both repository revisions (`Form._setElementValues` and
`Form._doSetData`). -/
theorem claim_C6_frame_property (data : List (String × FieldValue)) (e : Element) :
    (getA data e.name = none →
      Form.setElementValue1 data e = e ∧ FormV1.doSetDataOne data e = e)
    ∧ (e.etype = "submit" ∨ e.etype = "reset" ∨ e.etype = "button" →
      Form.setElementValue1 data e = e ∧ FormV1.doSetDataOne data e = e) := by
  constructor
  · intro h
    exact ⟨by simp [Form.setElementValue1, h], by simp [FormV1.doSetDataOne, h]⟩
  · intro h
    constructor
    · unfold Form.setElementValue1
      rcases h with h | h | h <;> rw [h] <;> cases getA data e.name <;> rfl
    · unfold FormV1.doSetDataOne
      rcases h with h | h | h <;> rw [h] <;> cases getA data e.name <;> rfl

/-- Witness for C6: an unmatched text input and a matched submit button are
both left unchanged. -/
theorem claim_C6_witness :
    Form.setElementValue1 [("x", FieldValue.s "1")]
        ⟨"y", "INPUT", "text", "v0", false, false, []⟩
      = ⟨"y", "INPUT", "text", "v0", false, false, []⟩
    ∧ Form.setElementValue1 [("b", FieldValue.s "1")]
        ⟨"b", "INPUT", "submit", "Go", false, false, []⟩
      = ⟨"b", "INPUT", "submit", "Go", false, false, []⟩ :=
  ⟨((claim_C6_frame_property [("x", FieldValue.s "1")]
      ⟨"y", "INPUT", "text", "v0", false, false, []⟩).1 rfl).1,
   ((claim_C6_frame_property [("b", FieldValue.s "1")]
      ⟨"b", "INPUT", "submit", "Go", false, false, []⟩).2 (Or.inl rfl)).1⟩

/-- C7: the `HttpRequest` constructor uppercases the method and derives the
query string with `$.param`; `getUrl` returns the URL with the query string
appended (joined by `&` when the URL already contains `?`, else by `?`)
exactly when the uppercased method is `GET` and the query string is
non-empty, and the unchanged URL otherwise.  The construction is a pure
value — no network call exists in the embedding. -/
theorem claim_C7_http_request_url (m u : String) (d : JValue) :
    (HttpRequest.make m u d).method = jsToUpper m
    ∧ (HttpRequest.make m u d).queryString = jparam d
    ∧ (jsToUpper m = "GET" → jparam d ≠ "" →
        (HttpRequest.make m u d).getUrl
          = u ++ (if u.contains '?' then "&" else "?") ++ jparam d)
    ∧ ((jsToUpper m ≠ "GET" ∨ jparam d = "") → (HttpRequest.make m u d).getUrl = u) := by
  refine ⟨rfl, rfl, ?_, ?_⟩
  · intro h1 h2
    simp [HttpRequest.make, HttpRequest.getUrl, h1, h2]
  · intro h
    rcases h with h | h <;> simp [HttpRequest.make, HttpRequest.getUrl, h]

/-- Witness for C7 on a lowercase `get` method with data `{a: "1"}`. -/
theorem claim_C7_witness :
    jsToUpper "get" = "GET"
    ∧ jparam (.obj (.cons "a" (.str "1") .nil)) ≠ ""
    ∧ (HttpRequest.make "get" "http://x.io" (.obj (.cons "a" (.str "1") .nil))).getUrl
        = "http://x.io" ++ (if ("http://x.io").contains '?' then "&" else "?")
            ++ jparam (.obj (.cons "a" (.str "1") .nil)) := by
  have h1 : jsToUpper "get" = "GET" := by decide
  have h2 : jparam (.obj (.cons "a" (.str "1") .nil)) ≠ "" := by
    simp [jparam, paramPairs, paramPairsTop, buildParams, encodeURIComponent, concatMap,
      encodeChar, unreservedChar, isAlphaChar, isDigitChar, joinSep]
  exact ⟨h1, h2, (claim_C7_http_request_url "get" "http://x.io" _).2.2.1 h1 h2⟩

/-- C8: `getData` creates its push counters fresh on each call (`getData`
is literally the run from the empty counter store, first conjunct) and
discards them afterwards, so repeated serialization of the same entry list
is deterministic (second conjunct).  The third conjunct shows the reset is
semantically essential: running the loop from the counters left over by a
previous call would change the result. -/
theorem claim_C8_fresh_push_counters :
    (∀ (entries : List Entry) (skip : Bool),
        FormV1.getData entries skip = (FormV1.getDataRun [] entries skip).1)
    ∧ (∀ (entries : List Entry) (skip : Bool),
        FormV1.getData entries skip = FormV1.getData entries skip)
    ∧ (FormV1.getDataRun (FormV1.getDataRun [] [⟨"a[]", "1"⟩] false).2
          [⟨"a[]", "1"⟩] false).1
        ≠ FormV1.getData [⟨"a[]", "1"⟩] false :=
  ⟨fun _ _ => rfl, fun _ _ => rfl, by decide⟩

/-- C9: the value collection of the lib revision's `getData` skips every
element with an empty name, `BUTTON` node name, or disabled flag, so a name
all of whose carriers are such elements never appears in the collected
data, for every element list and both settings of `skipEmptyValues`. -/
theorem claim_C9_skipped_elements_absent (all : List Element) (skip : Bool) (n : String)
    (h : ∀ e ∈ all, e.name = n → n = "" ∨ e.nodeName = "BUTTON" ∨ e.disabled = true) :
    getA (Form.getElementValues all skip) n = none :=
  getElementValuesLoop_absent skip n all all [] h rfl

/-- Witness for C9: a disabled text input contributes no key. -/
theorem claim_C9_witness :
    (∀ e ∈ [(⟨"k", "INPUT", "text", "v", false, true, []⟩ : Element)], e.name = "k" →
      "k" = "" ∨ e.nodeName = "BUTTON" ∨ e.disabled = true)
    ∧ getA (Form.getElementValues
        [⟨"k", "INPUT", "text", "v", false, true, []⟩] false) "k" = none := by
  have hh : ∀ e ∈ [(⟨"k", "INPUT", "text", "v", false, true, []⟩ : Element)], e.name = "k" →
      "k" = "" ∨ e.nodeName = "BUTTON" ∨ e.disabled = true := by
    intro e he _
    simp at he
    subst he
    right; right; rfl
  exact ⟨hh, claim_C9_skipped_elements_absent _ false "k" hh⟩

/-- C10: in the lib revision's value collection, a standalone checkbox
(the only element with its name) that is unchecked and not `[]`-named
contributes nothing; an unchecked `[]`-named checkbox contributes an empty
array unless empty values are skipped; and a checked `[]`-named checkbox
contributes the one-element array holding its value. -/
theorem claim_C10_checkbox_collection (e : Element) (skip : Bool)
    (hck : e.etype = "checkbox") (hnn : e.nodeName = "INPUT") (hd : e.disabled = false)
    (hname : e.name ≠ "") :
    (e.checked = false → endsWithPush e.name = false →
        Form.getElementValues [e] skip = [])
    ∧ (e.checked = false → endsWithPush e.name = true →
        Form.getElementValues [e] skip = if skip then [] else [(e.name, .l [])])
    ∧ (e.checked = true → endsWithPush e.name = true →
        Form.getElementValues [e] skip = [(e.name, .l [e.value])]) := by
  refine ⟨?_, ?_, ?_⟩ <;> intro h1 h2 <;>
    simp [Form.getElementValues, Form.getElementValuesLoop, hname, hnn, hd,
      Form.collectValue, hck, getA, Form.namedItems, h1, h2, Form.isEmptyFV, setA]

/-- Witness for C10 on a checked `[]`-named checkbox. -/
theorem claim_C10_witness :
    Form.getElementValues [(⟨"c[]", "INPUT", "checkbox", "on", true, false, []⟩ : Element)] false
      = [("c[]", .l ["on"])] :=
  (claim_C10_checkbox_collection ⟨"c[]", "INPUT", "checkbox", "on", true, false, []⟩ false
    rfl rfl rfl (by decide)).2.2 rfl rfl

/-- C5: round trip.  For every field-entry list whose names use explicit
array/object bracket syntax (an identifier base followed by named or
numeric bracket segments), pairwise distinct names, and ASCII values,
flattening (`Form.setData`) the structured value produced by serializing
(`Form.getData`) the corresponding text inputs leaves every element
unchanged, and serializing again reproduces the original structured
value. -/
theorem claim_C5_round_trip (fields : List (NamePath × String))
    (hwf : ∀ pv ∈ fields, wfPathM pv.1 = true)
    (hnd : (fields.map (fun pv => render pv.1)).Nodup)
    (hval : ∀ pv ∈ fields, asciiStr pv.2) :
    Form.setData (fields.map (fun pv => mkTextInput (render pv.1) pv.2)) none
        (Form.getData (fields.map (fun pv => mkTextInput (render pv.1) pv.2)) false)
      = fields.map (fun pv => mkTextInput (render pv.1) pv.2)
    ∧ Form.getData (Form.setData (fields.map (fun pv => mkTextInput (render pv.1) pv.2)) none
          (Form.getData (fields.map (fun pv => mkTextInput (render pv.1) pv.2)) false)) false
      = Form.getData (fields.map (fun pv => mkTextInput (render pv.1) pv.2)) false := by
  have hmain : Form.setData (fields.map (fun pv => mkTextInput (render pv.1) pv.2)) none
        (Form.getData (fields.map (fun pv => mkTextInput (render pv.1) pv.2)) false)
      = fields.map (fun pv => mkTextInput (render pv.1) pv.2) := by
    have htext : ∀ e ∈ fields.map (fun pv => mkTextInput (render pv.1) pv.2),
        e.nodeName = "INPUT" ∧ e.etype = "text" ∧ e.disabled = false ∧ e.name ≠ "" := by
      intro e he
      obtain ⟨pv, hpv, rfl⟩ := List.mem_map.mp he
      exact ⟨rfl, rfl, rfl, render_ne_emptyM pv.1 (hwf pv hpv)⟩
    have hnames : (fields.map (fun pv => mkTextInput (render pv.1) pv.2)).map
        (fun e => e.name) = fields.map (fun pv => render pv.1) := by
      rw [List.map_map]
      rfl
    have hflat : Form.getElementValues (fields.map (fun pv => mkTextInput (render pv.1) pv.2))
        false = fields.map (fun pv => (render pv.1, FieldValue.s pv.2)) := by
      rw [getElementValues_text _ htext (by rw [hnames]; exact hnd)]
      rw [List.map_map]
      rfl
    have htree : ∀ x ∈ paramPairs (Form.getData
        (fields.map (fun pv => mkTextInput (render pv.1) pv.2)) false),
        asciiStr x.1 ∧ asciiStr x.2 ∧
        (endsWithPush x.1 = true ∨ ∃ pv ∈ fields, x = (render pv.1, pv.2)) := by
      unfold Form.getData
      rw [hflat]
      refine getData_fold_pairsM _ _ _ rfl
        (by intro x hx; simp [paramPairs, paramPairsTop] at hx) ?_
      intro kv hkv
      obtain ⟨pv, hpv, rfl⟩ := List.mem_map.mp hkv
      refine ⟨pv.1, pv.2, rfl, hwf pv hpv, ?_⟩
      intro x hx
      have hx' : x ∈ buildParams pv.1.base (nestMixed pv.1.segs (.str pv.2)) := by
        simpa [paramPairs, paramPairsTop] using hx
      have hwfp := hwf pv hpv
      unfold wfPathM at hwfp
      simp only [Bool.and_eq_true, List.all_eq_true] at hwfp
      obtain ⟨h1, h2, h3⟩ := buildParams_nestMixed pv.1.segs pv.1.base pv.2 hwfp.2
        (endsWithPush_ident hwfp.1) (asciiStr_of_word (identStr_spec hwfp.1).2)
        (hval pv hpv) x hx'
      refine ⟨h1, h2, ?_⟩
      rcases h3 with h3 | h3
      · exact Or.inl h3
      · right
        refine ⟨pv, hpv, ?_⟩
        rw [h3]
        rfl
    set elems := fields.map (fun pv => mkTextInput (render pv.1) pv.2) with helems
    set tree := Form.getData elems false with htreedef
    have hset : Form.setData elems none tree
        = Form.setElementValues elems
            (((splitChar '&' (jparam tree).toList).map String.mk).foldl Form.rebuildStep []) :=
      rfl
    have hgoodparams : ∀ q ∈ (splitChar '&' (jparam tree).toList).map String.mk,
        endsWithPush (Form.paramName q) = true ∨
        (endsWithPush (Form.paramName q) = false ∧
          (Form.paramName q = "" ∨ ∃ pv ∈ fields,
            Form.paramName q = render pv.1 ∧ Form.paramValue q = pv.2)) := by
      intro q hq
      rcases hpe : paramPairs tree with _ | ⟨pr0, prrest⟩
      · have hjq : jparam tree = "" := by
          unfold jparam
          rw [hpe]
          rfl
        rw [hjq] at hq
        have hq' : q = "" := by
          simpa [splitChar] using hq
        subst hq'
        exact Or.inr ⟨rfl, Or.inl rfl⟩
      · have hnosep : ∀ p ∈ (paramPairs tree).map
            (fun pr => encodeURIComponent pr.1 ++ "=" ++ encodeURIComponent pr.2),
            '&' ∉ p.data := by
          intro p hp hmem
          obtain ⟨pr, hpr, rfl⟩ := List.mem_map.mp hp
          rw [show (encodeURIComponent pr.1 ++ "=" ++ encodeURIComponent pr.2).data
              = (encodeURIComponent pr.1).data ++ '=' :: (encodeURIComponent pr.2).data from by
            simp [String.data_append]] at hmem
          rcases List.mem_append.mp hmem with hmem | hmem
          · exact (encodeURIComponent_ne_sep pr.1 '&' hmem).1 rfl
          · rcases List.mem_cons.mp hmem with heq | hmem
            · exact absurd heq (by decide)
            · exact (encodeURIComponent_ne_sep pr.2 '&' hmem).1 rfl
        have hsplit : splitChar '&' (jparam tree).toList
            = ((paramPairs tree).map
                (fun pr => encodeURIComponent pr.1 ++ "=" ++ encodeURIComponent pr.2)).map
                String.data := by
          unfold jparam
          exact splitChar_join '&' "&" rfl
            ((paramPairs tree).map
              (fun pr => encodeURIComponent pr.1 ++ "=" ++ encodeURIComponent pr.2))
            (by rw [hpe]; simp) hnosep
        rw [hsplit] at hq
        rw [List.map_map, List.map_map] at hq
        have hq' : q ∈ (paramPairs tree).map
            (fun pr => encodeURIComponent pr.1 ++ "=" ++ encodeURIComponent pr.2) := by
          obtain ⟨pr, hpr, heq⟩ := List.mem_map.mp hq
          exact List.mem_map.mpr ⟨pr, hpr, heq⟩
        obtain ⟨pr, hpr, rfl⟩ := List.mem_map.mp hq'
        obtain ⟨ha1, ha2, hdisj⟩ := htree pr hpr
        obtain ⟨hname, hvalue⟩ := param_pair_decode pr.1 pr.2 ha1 ha2
        rcases hdisj with hpush | ⟨pv, hpv, hpr2⟩
        · left
          rw [hname]
          exact hpush
        · right
          have hk : pr.1 = render pv.1 := by rw [hpr2]
          have hw : pr.2 = pv.2 := by rw [hpr2]
          refine ⟨?_, Or.inr ⟨pv, hpv, ?_, ?_⟩⟩
          · rw [hname, hk]
            exact endsWithPush_renderM pv.1 (hwf pv hpv)
          · rw [hname, hk]
          · rw [hvalue, hw]
    have hrebuilt : ∀ kv ∈ ((splitChar '&' (jparam tree).toList).map String.mk).foldl
        Form.rebuildStep [],
        endsWithPush kv.1 = true ∨ kv.1 = ""
          ∨ ∃ pv ∈ fields, kv.1 = render pv.1 ∧ kv.2 = FieldValue.s pv.2 := by
      intro kv hkv
      refine rebuild_predM
        (fun n fv => endsWithPush n = true ∨ n = ""
          ∨ ∃ pv ∈ fields, n = render pv.1 ∧ fv = FieldValue.s pv.2)
        _ (fun n vs h => Or.inl h)
        (fun q hq => by
          rcases hgoodparams q hq with h | ⟨hf, hd⟩
          · exact Or.inl h
          · right
            rcases hd with hd | ⟨pv, hpv, ha, hb⟩
            · exact Or.inr (Or.inl hd)
            · exact Or.inr (Or.inr ⟨pv, hpv, ha, by rw [hb]⟩))
        [] (by simp) kv hkv
    rw [hset]
    unfold Form.setElementValues
    refine map_eq_self _ _ ?_
    intro e he
    rw [helems] at he
    obtain ⟨pv, hpv, rfl⟩ := List.mem_map.mp he
    apply setElementValue1_text_self
    intro fv hfv
    have hmem := getA_mem _ _ _ hfv
    rcases hrebuilt _ hmem with h | h | ⟨pv', hpv', ha, hb⟩
    · exact absurd h (by rw [show (endsWithPush (render pv.1)) = false from
        endsWithPush_renderM pv.1 (hwf pv hpv)]; simp)
    · exact absurd h (render_ne_emptyM pv.1 (hwf pv hpv))
    · have ha' : render pv.1 = render pv'.1 := ha
      have hb' : fv = FieldValue.s pv'.2 := hb
      have hpp : pv = pv' := nodup_render_unique fields hnd pv hpv pv' hpv' ha'
      rw [hb', ← hpp]
  exact ⟨hmain, by rw [hmain]⟩

theorem claim_C5_witness :
    (∀ pv ∈ ([(⟨"a", ["b", "0"]⟩, "7"), (⟨"c", []⟩, "q")] : List (NamePath × String)),
        wfPathM pv.1 = true)
    ∧ (([(⟨"a", ["b", "0"]⟩, "7"), (⟨"c", []⟩, "q")] : List (NamePath × String)).map
        (fun pv => render pv.1)).Nodup
    ∧ Form.setData
        (([(⟨"a", ["b", "0"]⟩, "7"), (⟨"c", []⟩, "q")] : List (NamePath × String)).map
          (fun pv => mkTextInput (render pv.1) pv.2)) none
        (Form.getData
          (([(⟨"a", ["b", "0"]⟩, "7"), (⟨"c", []⟩, "q")] : List (NamePath × String)).map
            (fun pv => mkTextInput (render pv.1) pv.2)) false)
      = ([(⟨"a", ["b", "0"]⟩, "7"), (⟨"c", []⟩, "q")] : List (NamePath × String)).map
          (fun pv => mkTextInput (render pv.1) pv.2) :=
  ⟨by decide, by decide,
   (claim_C5_round_trip [(⟨"a", ["b", "0"]⟩, "7"), (⟨"c", []⟩, "q")] (by decide) (by decide)
     (by
       intro pv hpv
       rcases List.mem_cons.mp hpv with rfl | hpv2
       · intro c hc
         rw [show ("7" : String).data = ['7'] from rfl] at hc
         rcases List.mem_singleton.mp hc with rfl
         decide
       · rcases List.mem_cons.mp hpv2 with rfl | hpv3
         · intro c hc
           rw [show ("q" : String).data = ['q'] from rfl] at hc
           rcases List.mem_singleton.mp hc with rfl
           decide
         · simp at hpv3)).1⟩

end JsForm
